import Mathlib

/-!
Verification development for the github-mcp-server repository.

The embedding translates the commit-construction pipeline of
`src/src/tools/handlers.ts` (`GitHubHandlers.handleCreateCommit`,
`detectCurrentBranch`), the owner-resolution helpers of `src/utils.ts`
(`getGitConfigOwner`, `getGitConfigUser`), the argument validator of
`src/types.ts` (`isValidCreateCommitArgs`) and the two process entry
points found in the repository (one with the GITHUB_TOKEN guard active,
one with it commented out).

Remote behaviour (Octokit calls, `execSync` of git) is abstracted as an
environment of response oracles; the handler is embedded as a function
from the environment and the raw argument value to the list of issued
API requests (the trace, in issue order) together with either a thrown
`McpError` or the success payload.  Wall-clock data (the `timestamp`
payload field) is omitted from the embedding.
-/

/-- JavaScript-style runtime values, as far as the untyped argument
validators of `src/types.ts` inspect them. -/
inductive JSValue where
  | null : JSValue
  | undef : JSValue
  | bool : Bool → JSValue
  | num : Int → JSValue
  | str : String → JSValue
  | arr : List JSValue → JSValue
  | obj : List (String × JSValue) → JSValue

/-- JS `typeof v === "object"` (true for objects, arrays and `null`). -/
def JSValue.typeofIsObject : JSValue → Bool
  | .null => true
  | .arr _ => true
  | .obj _ => true
  | _ => false

def JSValue.isNull : JSValue → Bool
  | .null => true
  | _ => false

def JSValue.isString : JSValue → Bool
  | .str _ => true
  | _ => false

/-- JS property access `v[k]`: field lookup on objects, `undefined`
otherwise.  (Property access on `null`/`undefined`, which would throw in
JS, is modelled as `undefined`; no claim exercises that corner.) -/
def JSValue.get : JSValue → String → JSValue
  | .obj fields, k =>
    match fields.lookup k with
    | some v => v
    | none => .undef
  | _, _ => .undef

def JSValue.asStr : JSValue → Option String
  | .str s => some s
  | _ => none

/-- `isValidCreateCommitArgs` from `src/types.ts` (src/unnamed/part_000,
lines 48-61): requires an object with string `repo`, string `message`
and an array `files` whose every element has string `path` and string
`content`.  The `owner` and `branch` fields are not inspected. -/
def isValidCreateCommitArgs (v : JSValue) : Bool :=
  v.typeofIsObject && !v.isNull &&
  (v.get "repo").isString && (v.get "message").isString &&
  (match v.get "files" with
   | .arr files =>
     files.all fun f => (f.get "path").isString && (f.get "content").isString
   | _ => false)

/-- One requested file change (`{path, content}`). -/
structure FileChange where
  path : String
  content : String
deriving DecidableEq

/-- The typed view of create_commit arguments after validation
(`CreateCommitParams`).  `owner`/`branch` are optional and unvalidated;
a non-string value in those fields is modelled as absent (the handler
would only ever pass strings on to the API). -/
structure CreateCommitArgs where
  owner : Option String
  repo : String
  branch : Option String
  message : String
  files : List FileChange
deriving DecidableEq

def extractFile (f : JSValue) : FileChange :=
  { path := ((f.get "path").asStr).getD ""
  , content := ((f.get "content").asStr).getD "" }

/-- The cast `args as CreateCommitParams` performed by the handler after
`isValidCreateCommitArgs` succeeded. -/
def extractArgs (v : JSValue) : CreateCommitArgs :=
  { owner := (v.get "owner").asStr
  , repo := ((v.get "repo").asStr).getD ""
  , branch := (v.get "branch").asStr
  , message := ((v.get "message").asStr).getD ""
  , files :=
      match v.get "files" with
      | .arr files => files.map extractFile
      | _ => [] }

/-- JS truthiness of an optional string (`!owner` is true for
`undefined` and for the empty string). -/
def strTruthy : Option String → Bool
  | none => false
  | some s => !s.isEmpty

/-- MCP error codes (only `InvalidParams` is used by these handlers). -/
inductive ErrorCode where
  | invalidParams : ErrorCode
deriving DecidableEq

/-- `McpError` as thrown by the handlers. -/
structure McpError where
  code : ErrorCode
  message : String
deriving DecidableEq

/-- A thrown JS error, distinguishing `McpError` (checked with
`instanceof McpError` in one catch block) from any other `Error`. -/
inductive JsError where
  | mcp : McpError → JsError
  | js : String → JsError
deriving DecidableEq

/-- `error.message` of a thrown error (`error instanceof Error ?
error.message : "Unknown error"`; both constructors model `Error`s). -/
def JsError.message : JsError → String
  | .mcp e => e.message
  | .js m => m

/-- Results of the two `git config --get` shell-outs used by
`src/utils.ts` (src/unnamed/part_003).  A field is `Except.error` when
`execSync` throws (e.g. the key is unset); an `ok` value is the trimmed
stdout. -/
structure GitConfig where
  remoteOriginUrl : Except JsError String
  userName : Except JsError String

/-- `getGitConfigUser` from `src/utils.ts`: `user.name` from git config,
`null` (here `none`) when the command fails or prints nothing. -/
def getGitConfigUser (cfg : GitConfig) : Option String :=
  match cfg.userName with
  | .ok u => if u.isEmpty then none else some u
  | .error _ => none

/-- The char list "github.com" that the regex of `getGitConfigOwner`
searches for. -/
def ghHost : List Char := ['g', 'i', 't', 'h', 'u', 'b', '.', 'c', 'o', 'm']

/-- One attempt of the regex `github\.com[\/:]([^\/]+)` at the head of
`cs`: requires the literal `github.com`, then `/` or `:`, then a
non-empty run of non-`/` characters (the capture). -/
def ghMatchAt (cs : List Char) : Option (List Char) :=
  if ghHost.isPrefixOf cs then
    match cs.drop 10 with
    | [] => none
    | c :: rest =>
      if c = '/' ∨ c = ':' then
        let cap := rest.takeWhile fun x => x ≠ '/'
        if cap.isEmpty then none else some cap
      else none
  else none

/-- Leftmost-match semantics of `remoteUrl.match(/github\.com[\/:]([^\/]+)/)`:
try the pattern at each position, first success wins. -/
def ghScan : List Char → Option (List Char)
  | [] => none
  | c :: rest =>
    match ghMatchAt (c :: rest) with
    | some cap => some cap
    | none => ghScan rest

/-- Capture group 1 of `remoteUrl.match(/github\.com[\/:]([^\/]+)/)`,
or `none` when the regex does not match. -/
def extractGithubOwner (url : String) : Option String :=
  (ghScan url.data).map fun cs => List.asString cs

/-- `getGitConfigOwner` from `src/utils.ts` (src/unnamed/part_003,
lines 25-48): parse the owner out of `remote.origin.url` when the URL is
truthy and the github.com regex matches; otherwise (falsy URL, no match,
or `execSync` threw) fall back to `getGitConfigUser`. -/
def getGitConfigOwner (cfg : GitConfig) : Option String :=
  match cfg.remoteOriginUrl with
  | .ok url =>
    if url.isEmpty then getGitConfigUser cfg
    else
      match extractGithubOwner url with
      | some o => some o
      | none => getGitConfigUser cfg
  | .error _ => getGitConfigUser cfg

/-- A blob record handed to tree construction: `{path, mode: "100644",
type: "blob", sha}`. -/
structure BlobEntry where
  path : String
  mode : String
  type : String
  sha : String
deriving DecidableEq

/-- One remote API request issued by the handler, with the arguments the
code passes. -/
inductive ApiCall where
  | reposGet : (owner repo : String) → ApiCall
  | getAuthenticated : ApiCall
  | getRef : (owner repo ref : String) → ApiCall
  | getCommit : (owner repo sha : String) → ApiCall
  | createBlob : (owner repo content encoding : String) → ApiCall
  | createTree : (owner repo baseTree : String) → List BlobEntry → ApiCall
  | createCommit : (owner repo message tree : String) → List String → ApiCall
  | updateRef : (owner repo ref sha : String) → ApiCall
deriving DecidableEq

inductive CallKind where
  | reposGetK | getAuthK | getRefK | getCommitK
  | createBlobK | createTreeK | createCommitK | updateRefK
deriving DecidableEq

def ApiCall.kind : ApiCall → CallKind
  | .reposGet _ _ => .reposGetK
  | .getAuthenticated => .getAuthK
  | .getRef _ _ _ => .getRefK
  | .getCommit _ _ _ => .getCommitK
  | .createBlob _ _ _ _ => .createBlobK
  | .createTree _ _ _ _ => .createTreeK
  | .createCommit _ _ _ _ _ => .createCommitK
  | .updateRef _ _ _ _ => .updateRefK

/-- The `owner` argument carried by a request (none for the
authenticated-user lookup, which takes no owner). -/
def ApiCall.callOwner : ApiCall → Option String
  | .reposGet o _ => some o
  | .getAuthenticated => none
  | .getRef o _ _ => some o
  | .getCommit o _ _ => some o
  | .createBlob o _ _ _ => some o
  | .createTree o _ _ _ => some o
  | .createCommit o _ _ _ _ => some o
  | .updateRef o _ _ _ => some o

/-- Parents list of a `createCommit` request. -/
def ApiCall.ccParents : ApiCall → Option (List String)
  | .createCommit _ _ _ _ ps => some ps
  | _ => none

/-- `base_tree` of a `createTree` request. -/
def ApiCall.ctBase : ApiCall → Option String
  | .createTree _ _ b _ => some b
  | _ => none

/-- Entry list of a `createTree` request. -/
def ApiCall.ctEntries : ApiCall → Option (List BlobEntry)
  | .createTree _ _ _ es => some es
  | _ => none

/-- Number of requests of kind `k` in a trace. -/
def countKind (k : CallKind) (t : List ApiCall) : Nat :=
  t.countP fun c => decide (c.kind = k)

/-- The remote world: one response oracle per Octokit endpoint the
handlers use, plus the local git configuration.  An `Except.error` is a
rejected promise (a thrown error); `ok none` on the read endpoints
models a response whose `sha` field is missing (the `?.sha` checks). -/
structure Env where
  gitConfig : GitConfig
  authUser : Except JsError String
  reposGet : (owner repo : String) → Except JsError String
  getRef : (owner repo ref : String) → Except JsError (Option String)
  getCommit : (owner repo sha : String) → Except JsError (Option String)
  createBlob : (owner repo content : String) → Except JsError String
  createTree : (owner repo baseTree : String) → List BlobEntry → Except JsError (Option String)
  createCommit : (owner repo message tree : String) → List String → Except JsError (Option String)
  updateRef : (owner repo ref sha : String) → Except JsError Unit

/-- The `McpError` produced by the owner-resolution catch block of
`handleCreateCommit`, `handlePull` and `handleGitStatus` (the
`OwnerResolutionError` of the spec). -/
def ownerResolutionError : McpError :=
  ⟨.invalidParams, "Failed to determine repository owner. Please provide owner explicitly."⟩

/-- Owner resolution as in `handleCreateCommit` (handlers.ts lines
205-226), `handlePull` and `handleGitStatus`: explicit truthy argument,
else `getGitConfigOwner()` (which never throws), else the authenticated
user; the surrounding try/catch turns a failure of that last lookup into
`ownerResolutionError`. -/
def resolveOwner (env : Env) (argOwner : Option String) :
    List ApiCall × Except McpError String :=
  if strTruthy argOwner then ([], .ok (argOwner.getD ""))
  else
    match getGitConfigOwner env.gitConfig with
    | some o => ([], .ok o)
    | none =>
      ([ApiCall.getAuthenticated],
       match env.authUser with
       | .ok u => .ok u
       | .error _ => .error ownerResolutionError)

/-- Owner resolution as in `handleGetRepo` (lines 109-120),
`handleCreateRepo` (160-171) and `handlePush` (420-433): identical
precedence but no try/catch, so a failing authenticated-user lookup
propagates the underlying error unchanged. -/
def resolveOwnerNoCatch (env : Env) (argOwner : Option String) :
    List ApiCall × Except JsError String :=
  if strTruthy argOwner then ([], .ok (argOwner.getD ""))
  else
    match getGitConfigOwner env.gitConfig with
    | some o => ([], .ok o)
    | none =>
      ([ApiCall.getAuthenticated],
       match env.authUser with
       | .ok u => .ok u
       | .error e => .error e)

/-- `detectCurrentBranch` (handlers.ts lines 41-63): one repository
metadata read; its `default_branch` on success, literal "main" when the
read fails.  Total by construction: the catch swallows the failure. -/
def detectCurrentBranch (env : Env) (repo owner : String) :
    List ApiCall × String :=
  ([ApiCall.reposGet owner repo],
   match env.reposGet owner repo with
   | .ok repoData => repoData
   | .error _ => "main")

/-- `args.branch || (await this.detectCurrentBranch(args.repo, owner))`,
shared by create_commit, push, pull and git_status. -/
def resolveBranch (env : Env) (repo owner : String) (argBranch : Option String) :
    List ApiCall × String :=
  match argBranch with
  | some b => if b.isEmpty then detectCurrentBranch env repo owner else ([], b)
  | none => detectCurrentBranch env repo owner

/-- The catch block of the reference-reading stage (handlers.ts lines
267-277): an `McpError` thrown inside the block is rethrown unchanged,
anything else is wrapped with the stage context. -/
def refBlockCatch : JsError → McpError
  | .mcp e => e
  | .js m =>
    ⟨.invalidParams,
     "Failed to get branch reference: " ++ m ++
       ". Please verify the repository and branch exist."⟩

/-- Reference Reader (handlers.ts lines 239-277): read the branch ref to
get the tip commit sha, then read that commit to get its tree sha,
checking both responses for a usable sha. -/
def readTip (env : Env) (owner repo branch : String) :
    List ApiCall × Except McpError (String × String) :=
  match env.getRef owner repo ("heads/" ++ branch) with
  | .error e =>
    ([ApiCall.getRef owner repo ("heads/" ++ branch)], .error (refBlockCatch e))
  | .ok none =>
    ([ApiCall.getRef owner repo ("heads/" ++ branch)],
     .error ⟨.invalidParams,
       "Invalid reference data received for branch \x27" ++ branch ++
         "\x27. The branch may not exist."⟩)
  | .ok (some tipSha) =>
    match env.getCommit owner repo tipSha with
    | .error e =>
      ([ApiCall.getRef owner repo ("heads/" ++ branch), ApiCall.getCommit owner repo tipSha],
       .error (refBlockCatch e))
    | .ok none =>
      ([ApiCall.getRef owner repo ("heads/" ++ branch), ApiCall.getCommit owner repo tipSha],
       .error ⟨.invalidParams,
         "Invalid commit data received. Unable to access the commit tree."⟩)
    | .ok (some treeSha) =>
      ([ApiCall.getRef owner repo ("heads/" ++ branch), ApiCall.getCommit owner repo tipSha],
       .ok (tipSha, treeSha))

/-- Per-file outcomes of the blob fan-out (`args.files.map` with one
`createBlob` per file).  Each outcome depends only on that file's own
content, which is the embedding of "no ordering guarantee between
files": completion order cannot influence any result. -/
def blobResults (env : Env) (owner repo : String) (files : List FileChange) :
    List (Except JsError BlobEntry) :=
  files.map fun f =>
    match env.createBlob owner repo f.content with
    | .ok sha => .ok { path := f.path, mode := "100644", type := "blob", sha := sha }
    | .error e => .error e

/-- `Promise.all`: all results, or the first failure (determinised to
the first in input order; no claim depends on which rejection wins). -/
def collectFirst : List (Except JsError α) → Except JsError (List α)
  | [] => .ok []
  | .error e :: _ => .error e
  | .ok a :: rest => (collectFirst rest).map fun l => a :: l

/-- Blob Writer stage (handlers.ts lines 280-306): all uploads are
issued (the fan-out starts every request), results are collected in
input order, and any failure is wrapped by the stage's catch. -/
def uploadBlobs (env : Env) (owner repo : String) (files : List FileChange) :
    List ApiCall × Except McpError (List BlobEntry) :=
  (files.map fun f => ApiCall.createBlob owner repo f.content "utf-8",
   match collectFirst (blobResults env owner repo files) with
   | .ok blobs => .ok blobs
   | .error e =>
     .error ⟨.invalidParams, "Failed to create file blobs: " ++ e.message⟩)

/-- The catch block of the tree/commit stage (handlers.ts lines
359-366): every error, `McpError` included, is wrapped. -/
def commitBlockCatch (e : JsError) : McpError :=
  ⟨.invalidParams, "Failed to create commit: " ++ e.message⟩

/-- The error surfaced when the blob list is empty (the
`EmptyChangesetError` of the spec): the guard's `McpError` as wrapped by
the stage's own catch. -/
def emptyChangesetError : McpError :=
  commitBlockCatch (.mcp ⟨.invalidParams,
    "No valid file blobs were created. Please check the file contents."⟩)

/-- Tree Builder and Commit Writer stage (handlers.ts lines 316-366):
guard against an empty blob list, create the tree on top of `baseTree`,
then create the commit with the single parent `parentSha`; every check
failure or thrown error is funnelled through the block's catch. -/
def buildTreeAndCommit (env : Env) (owner repo message baseTree parentSha : String)
    (blobs : List BlobEntry) : List ApiCall × Except McpError String :=
  if blobs.isEmpty then ([], .error emptyChangesetError)
  else
    match env.createTree owner repo baseTree blobs with
    | .error e =>
      ([ApiCall.createTree owner repo baseTree blobs], .error (commitBlockCatch e))
    | .ok none =>
      ([ApiCall.createTree owner repo baseTree blobs],
       .error (commitBlockCatch (.mcp ⟨.invalidParams,
         "Failed to create a valid tree structure."⟩)))
    | .ok (some treeSha) =>
      match env.createCommit owner repo message treeSha [parentSha] with
      | .error e =>
        ([ApiCall.createTree owner repo baseTree blobs,
          ApiCall.createCommit owner repo message treeSha [parentSha]],
         .error (commitBlockCatch e))
      | .ok none =>
        ([ApiCall.createTree owner repo baseTree blobs,
          ApiCall.createCommit owner repo message treeSha [parentSha]],
         .error (commitBlockCatch (.mcp ⟨.invalidParams,
           "Failed to create a valid commit. The commit data is invalid."⟩)))
      | .ok (some commitSha) =>
        ([ApiCall.createTree owner repo baseTree blobs,
          ApiCall.createCommit owner repo message treeSha [parentSha]],
         .ok commitSha)

/-- Branch Updater stage (handlers.ts lines 368-386): the single
reference-mutating request, with its catch wrapping any failure. -/
def updateBranch (env : Env) (owner repo branch sha : String) :
    List ApiCall × Except McpError Unit :=
  ([ApiCall.updateRef owner repo ("heads/" ++ branch) sha],
   match env.updateRef owner repo ("heads/" ++ branch) sha with
   | .ok _ => .ok ()
   | .error e =>
     .error ⟨.invalidParams, "Failed to update branch reference: " ++ e.message⟩)

/-- The success payload of create_commit (handlers.ts lines 388-410),
without the wall-clock `timestamp` field. -/
structure SuccessPayload where
  commit_sha : String
  html_url : String
  repository : String
  branch : String
  message : String
  files_changed : Nat
  file_paths : List String
deriving DecidableEq

def mkPayload (owner : String) (a : CreateCommitArgs) (branch newSha : String) :
    SuccessPayload :=
  { commit_sha := newSha
  , html_url := "https://github.com/" ++ owner ++ "/" ++ a.repo ++ "/commit/" ++ newSha
  , repository := owner ++ "/" ++ a.repo
  , branch := branch
  , message := a.message
  , files_changed := a.files.length
  , file_paths := a.files.map fun f => f.path }

/-- Blob fan-out, tree, commit and ref update, given the tip captured by
the Reference Reader. -/
def runFromTip (env : Env) (a : CreateCommitArgs)
    (owner branch parentSha baseTree : String) :
    List ApiCall × Except McpError SuccessPayload :=
  match uploadBlobs env owner a.repo a.files with
  | (t4, .error e) => (t4, .error e)
  | (t4, .ok blobs) =>
    match buildTreeAndCommit env owner a.repo a.message baseTree parentSha blobs with
    | (t5, .error e) => (t4 ++ t5, .error e)
    | (t5, .ok newSha) =>
      match updateBranch env owner a.repo branch newSha with
      | (t6, .error e) => (t4 ++ t5 ++ t6, .error e)
      | (t6, .ok _) => (t4 ++ t5 ++ t6, .ok (mkPayload owner a branch newSha))

/-- Branch resolution, reference read and the rest of the pipeline,
given the resolved owner. -/
def runFromOwner (env : Env) (a : CreateCommitArgs) (owner : String) :
    List ApiCall × Except McpError SuccessPayload :=
  match resolveBranch env a.repo owner a.branch with
  | (t2, branch) =>
    match readTip env owner a.repo branch with
    | (t3, .error e) => (t2 ++ t3, .error e)
    | (t3, .ok (parentSha, baseTree)) =>
      match runFromTip env a owner branch parentSha baseTree with
      | (t', r) => (t2 ++ t3 ++ t', r)

/-- The pipeline on validated arguments. -/
def handleValidated (env : Env) (a : CreateCommitArgs) :
    List ApiCall × Except McpError SuccessPayload :=
  match resolveOwner env a.owner with
  | (t1, .error e) => (t1, .error e)
  | (t1, .ok owner) =>
    match runFromOwner env a owner with
    | (t', r) => (t1 ++ t', r)

def invalidCreateCommitArgsError : McpError :=
  ⟨.invalidParams,
   "Invalid arguments for create_commit: requires repo, message, and files array"⟩

/-- `handleCreateCommit` (handlers.ts lines 196-411): validate the raw
arguments, then run the pipeline; result is the trace of issued API
requests in issue order and either the thrown `McpError` or the success
payload. -/
def handleCreateCommit (env : Env) (raw : JSValue) :
    List ApiCall × Except McpError SuccessPayload :=
  if isValidCreateCommitArgs raw then handleValidated env (extractArgs raw)
  else ([], .error invalidCreateCommitArgsError)

def exceptIsError : Except ε α → Bool
  | .error _ => true
  | .ok _ => false

/-- Outcome of launching the server process. -/
inductive StartupOutcome where
  | started : StartupOutcome
  | exitedWithError : Nat → StartupOutcome
deriving DecidableEq

/-- The current modular entry point (src/unnamed/part_001, lines 1-20):
`GITHUB_TOKEN` is read from the process environment but the guard that
would exit on its absence is commented out, so the server is constructed
and run unconditionally. -/
def modularEntryStartup (_githubToken : Option String) : StartupOutcome :=
  .started

/-- The legacy monolithic entry point (src/unnamed/part_001, lines
35-40): a falsy `GITHUB_TOKEN` logs an error and calls
`process.exit(1)` before the server is constructed. -/
def legacyEntryStartup (githubToken : Option String) : StartupOutcome :=
  if strTruthy githubToken then .started else .exitedWithError 1

/-- A raw create_commit argument object with explicit owner and branch
and an empty files array. -/
def ccRawEmptyFiles (o r b m : String) : JSValue :=
  .obj [("owner", .str o), ("repo", .str r), ("branch", .str b),
        ("message", .str m), ("files", .arr [])]

/-- A concrete all-succeeding environment, used by witnesses. -/
def env0 : Env :=
  { gitConfig := { remoteOriginUrl := .ok "https://github.com/acme/widgets.git"
                 , userName := .ok "carol" }
  , authUser := .ok "hubuser"
  , reposGet := fun _ _ => .ok "trunk"
  , getRef := fun _ _ _ => .ok (some "tipsha")
  , getCommit := fun _ _ _ => .ok (some "basetree")
  , createBlob := fun _ _ content => .ok ("blob-" ++ content)
  , createTree := fun _ _ _ _ => .ok (some "newtree")
  , createCommit := fun _ _ _ _ _ => .ok (some "newcommit")
  , updateRef := fun _ _ _ _ => .ok () }

/-- `env0` with a failing branch-reference read. -/
def envRefFail : Env :=
  { env0 with getRef := fun _ _ _ => .error (.js "boom") }

/-- `env0` with no git-config sources and a failing authenticated-user
lookup. -/
def envAuthFail : Env :=
  { env0 with
      gitConfig := { remoteOriginUrl := .error (.js "no remote")
                   , userName := .error (.js "no user") }
    , authUser := .error (.js "bad credentials") }

/-- `env0` with a failing repository-metadata read. -/
def envRepoFail : Env :=
  { env0 with reposGet := fun _ _ => .error (.js "not found") }

/-- A concrete valid raw argument object with one file. -/
def rawOneFile : JSValue :=
  .obj [("owner", .str "acme"), ("repo", .str "widgets"),
        ("branch", .str "dev"), ("message", .str "msg"),
        ("files", .arr [.obj [("path", .str "a.txt"), ("content", .str "hello")]])]

/-- `rawOneFile` without the owner field. -/
def rawNoOwner : JSValue :=
  .obj [("repo", .str "widgets"), ("branch", .str "dev"),
        ("message", .str "msg"),
        ("files", .arr [.obj [("path", .str "a.txt"), ("content", .str "hello")]])]

/-! ## Helper lemmas -/

lemma countKind_append (k : CallKind) (t1 t2 : List ApiCall) :
    countKind k (t1 ++ t2) = countKind k t1 + countKind k t2 :=
  List.countP_append _ _ _

lemma countKind_single (k : CallKind) (c : ApiCall) :
    countKind k [c] = if c.kind = k then 1 else 0 := by
  simp [countKind, List.countP_cons]

lemma bound_single {t : List ApiCall} {c : ApiCall} (h : t = [] ∨ t = [c]) (k : CallKind) :
    countKind k t ≤ if k = c.kind then 1 else 0 := by
  rcases h with rfl | rfl
  · simp [countKind]
  · rw [countKind_single]
    by_cases hk : c.kind = k
    · subst hk; simp
    · rw [if_neg hk, if_neg fun hh => hk hh.symm]

lemma countKind_pair (k : CallKind) (c d : ApiCall) :
    countKind k [c, d] = (if c.kind = k then 1 else 0) + (if d.kind = k then 1 else 0) := by
  rw [show ([c, d] : List ApiCall) = [c] ++ [d] from rfl, countKind_append,
    countKind_single, countKind_single]

lemma countKind_cons (k : CallKind) (c : ApiCall) (t : List ApiCall) :
    countKind k (c :: t) = countKind k t + if c.kind = k then 1 else 0 := by
  simp [countKind, List.countP_cons]

lemma countKind_blob_map (k : CallKind) (o r : String) (files : List FileChange) :
    countKind k (files.map fun f => ApiCall.createBlob o r f.content "utf-8")
      = if k = CallKind.createBlobK then files.length else 0 := by
  induction files with
  | nil => simp [countKind]
  | cons f fs ih =>
    rw [List.map_cons, countKind_cons, ih]
    by_cases hk : k = CallKind.createBlobK
    · subst hk; simp [ApiCall.kind]
    · rw [if_neg hk, if_neg hk,
        if_neg (show ¬(ApiCall.createBlob o r f.content "utf-8").kind = k from
          fun hh => hk (by rw [← hh]; rfl))]

lemma countKind_eq_zero {k : CallKind} {t : List ApiCall} (h : countKind k t = 0) :
    ∀ c ∈ t, c.kind ≠ k := by
  intro c hc
  have := List.countP_eq_zero.mp h c hc
  simpa using this

lemma resolveOwner_trace (env : Env) (a : Option String) :
    (resolveOwner env a).1 = [] ∨ (resolveOwner env a).1 = [ApiCall.getAuthenticated] := by
  unfold resolveOwner
  cases h : strTruthy a
  · simp only [Bool.false_eq_true, if_false]
    cases hc : getGitConfigOwner env.gitConfig <;> simp
  · simp

lemma resolveBranch_trace (env : Env) (repo owner : String) (b : Option String) :
    (resolveBranch env repo owner b).1 = [] ∨
    (resolveBranch env repo owner b).1 = [ApiCall.reposGet owner repo] := by
  unfold resolveBranch detectCurrentBranch
  cases b with
  | none => simp
  | some s => cases h : s.isEmpty <;> simp [h]

lemma readTip_trace (env : Env) (o r b : String) :
    (readTip env o r b).1 = [ApiCall.getRef o r ("heads/" ++ b)] ∨
    ∃ s, (readTip env o r b).1
        = [ApiCall.getRef o r ("heads/" ++ b), ApiCall.getCommit o r s] := by
  unfold readTip
  cases h : env.getRef o r ("heads/" ++ b) with
  | error e => simp
  | ok v =>
    cases v with
    | none => simp
    | some s =>
      cases h2 : env.getCommit o r s with
      | error e => exact Or.inr ⟨s, by simp [h2]⟩
      | ok w => cases w <;> exact Or.inr ⟨s, by simp [h2]⟩

lemma uploadBlobs_trace (env : Env) (o r : String) (files : List FileChange) :
    (uploadBlobs env o r files).1
      = files.map fun f => ApiCall.createBlob o r f.content "utf-8" := rfl

lemma buildTreeAndCommit_trace (env : Env) (o r m base parent : String)
    (blobs : List BlobEntry) :
    (buildTreeAndCommit env o r m base parent blobs).1 = [] ∨
    (buildTreeAndCommit env o r m base parent blobs).1
        = [ApiCall.createTree o r base blobs] ∨
    ∃ ts, (buildTreeAndCommit env o r m base parent blobs).1
        = [ApiCall.createTree o r base blobs, ApiCall.createCommit o r m ts [parent]] := by
  unfold buildTreeAndCommit
  cases hb : blobs.isEmpty
  · simp only [Bool.false_eq_true, if_false]
    cases h : env.createTree o r base blobs with
    | error e => simp
    | ok v =>
      cases v with
      | none => simp
      | some ts =>
        cases h2 : env.createCommit o r m ts [parent] with
        | error e => exact Or.inr (Or.inr ⟨ts, by simp [h2]⟩)
        | ok w => cases w <;> exact Or.inr (Or.inr ⟨ts, by simp [h2]⟩)
  · simp

lemma updateBranch_trace (env : Env) (o r b sha : String) :
    (updateBranch env o r b sha).1 = [ApiCall.updateRef o r ("heads/" ++ b) sha] := rfl

lemma blobResults_cons (env : Env) (o r : String) (f : FileChange) (fs : List FileChange) :
    blobResults env o r (f :: fs)
      = (match env.createBlob o r f.content with
         | .ok sha => .ok { path := f.path, mode := "100644", type := "blob", sha := sha }
         | .error e => .error e) :: blobResults env o r fs := rfl

lemma blob_forall2 (env : Env) (o r : String) :
    ∀ (files : List FileChange) (blobs : List BlobEntry),
      collectFirst (blobResults env o r files) = .ok blobs →
      List.Forall₂ (fun (f : FileChange) (b : BlobEntry) =>
        b.path = f.path ∧ b.mode = "100644" ∧ b.type = "blob" ∧
        env.createBlob o r f.content = Except.ok b.sha) files blobs := by
  intro files
  induction files with
  | nil =>
    intro blobs h
    simp only [blobResults, List.map_nil, collectFirst] at h
    cases h
    exact List.Forall₂.nil
  | cons f fs ih =>
    intro blobs h
    rw [blobResults_cons] at h
    cases hcb : env.createBlob o r f.content with
    | error e => rw [hcb] at h; simp [collectFirst] at h
    | ok sha =>
      rw [hcb] at h
      simp only [collectFirst] at h
      cases hrest : collectFirst (blobResults env o r fs) with
      | error e => rw [hrest] at h; simp [Except.map] at h
      | ok l =>
        rw [hrest] at h
        simp only [Except.map, Except.ok.injEq] at h
        subst h
        exact List.Forall₂.cons ⟨rfl, rfl, rfl, hcb⟩ (ih l hrest)

lemma forall2_paths {R : FileChange → BlobEntry → Prop}
    {files : List FileChange} {blobs : List BlobEntry}
    (h : List.Forall₂ R files blobs) (hp : ∀ f b, R f b → b.path = f.path) :
    blobs.map (fun b => b.path) = files.map fun f => f.path := by
  induction h with
  | nil => rfl
  | cons hr _ ih => simp only [List.map_cons, hp _ _ hr, ih]

lemma uploadBlobs_ok {env : Env} {o r : String} {files : List FileChange}
    {t : List ApiCall} {blobs : List BlobEntry}
    (h : uploadBlobs env o r files = (t, Except.ok blobs)) :
    collectFirst (blobResults env o r files) = .ok blobs ∧
    t = files.map fun f => ApiCall.createBlob o r f.content "utf-8" := by
  unfold uploadBlobs at h
  cases hc : collectFirst (blobResults env o r files) with
  | ok l =>
    simp only [hc, Prod.mk.injEq, Except.ok.injEq] at h
    obtain ⟨ht, hb⟩ := h
    subst hb
    exact ⟨rfl, ht.symm⟩
  | error e =>
    simp only [hc, Prod.mk.injEq] at h
    exact absurd h.2 (by simp)

lemma buildTreeAndCommit_ok {env : Env} {o r m base parent : String}
    {blobs : List BlobEntry} {t5 : List ApiCall} {sha : String}
    (h : buildTreeAndCommit env o r m base parent blobs = (t5, Except.ok sha)) :
    ∃ ts, env.createTree o r base blobs = .ok (some ts) ∧
      env.createCommit o r m ts [parent] = .ok (some sha) ∧
      t5 = [ApiCall.createTree o r base blobs,
            ApiCall.createCommit o r m ts [parent]] ∧
      blobs.isEmpty = false := by
  unfold buildTreeAndCommit at h
  cases hb : blobs.isEmpty
  · simp only [hb, Bool.false_eq_true, if_false] at h
    cases hct : env.createTree o r base blobs with
    | error e => simp [hct] at h
    | ok v =>
      cases v with
      | none => simp [hct] at h
      | some ts =>
        simp only [hct] at h
        cases hcc : env.createCommit o r m ts [parent] with
        | error e => simp [hcc] at h
        | ok w =>
          cases w with
          | none => simp [hcc] at h
          | some sha2 =>
            simp only [hcc, Prod.mk.injEq, Except.ok.injEq] at h
            obtain ⟨ht, hs⟩ := h
            subst hs
            exact ⟨ts, rfl, hcc, ht.symm, rfl⟩
  · simp only [hb, if_true] at h
    exact absurd (congrArg Prod.snd h) (by simp [emptyChangesetError])

lemma handleValidated_owner_error {env : Env} {a : CreateCommitArgs}
    {t1 : List ApiCall} {e : McpError}
    (h : resolveOwner env a.owner = (t1, Except.error e)) :
    handleValidated env a = (t1, Except.error e) := by
  unfold handleValidated
  simp only [h]

lemma handleValidated_owner_ok {env : Env} {a : CreateCommitArgs}
    {t1 : List ApiCall} {owner : String}
    (h : resolveOwner env a.owner = (t1, Except.ok owner)) :
    handleValidated env a
      = (t1 ++ (runFromOwner env a owner).1, (runFromOwner env a owner).2) := by
  unfold handleValidated
  simp only [h]

lemma runFromOwner_tip_error {env : Env} {a : CreateCommitArgs} {owner : String}
    {t3 : List ApiCall} {e : McpError}
    (h : readTip env owner a.repo (resolveBranch env a.repo owner a.branch).2
        = (t3, Except.error e)) :
    runFromOwner env a owner
      = ((resolveBranch env a.repo owner a.branch).1 ++ t3, Except.error e) := by
  unfold runFromOwner
  cases hb : resolveBranch env a.repo owner a.branch with
  | mk t2 b =>
    rw [hb] at h
    simp only at h
    simp only [h]

lemma runFromOwner_tip_ok {env : Env} {a : CreateCommitArgs} {owner : String}
    {t3 : List ApiCall} {p ts : String}
    (h : readTip env owner a.repo (resolveBranch env a.repo owner a.branch).2
        = (t3, Except.ok (p, ts))) :
    runFromOwner env a owner
      = ((resolveBranch env a.repo owner a.branch).1 ++ t3 ++
          (runFromTip env a owner (resolveBranch env a.repo owner a.branch).2 p ts).1,
         (runFromTip env a owner (resolveBranch env a.repo owner a.branch).2 p ts).2) := by
  unfold runFromOwner
  cases hb : resolveBranch env a.repo owner a.branch with
  | mk t2 b =>
    rw [hb] at h
    simp only at h ⊢
    simp only [h]

lemma runFromTip_blob_error {env : Env} {a : CreateCommitArgs}
    {owner branch p base : String} {t4 : List ApiCall} {e : McpError}
    (h : uploadBlobs env owner a.repo a.files = (t4, Except.error e)) :
    runFromTip env a owner branch p base = (t4, Except.error e) := by
  unfold runFromTip
  simp only [h]

lemma runFromTip_build_error {env : Env} {a : CreateCommitArgs}
    {owner branch p base : String} {t4 t5 : List ApiCall}
    {blobs : List BlobEntry} {e : McpError}
    (h4 : uploadBlobs env owner a.repo a.files = (t4, Except.ok blobs))
    (h5 : buildTreeAndCommit env owner a.repo a.message base p blobs
        = (t5, Except.error e)) :
    runFromTip env a owner branch p base = (t4 ++ t5, Except.error e) := by
  unfold runFromTip
  simp only [h4, h5]

lemma runFromTip_update_error {env : Env} {a : CreateCommitArgs}
    {owner branch p base : String} {t4 t5 t6 : List ApiCall}
    {blobs : List BlobEntry} {newSha : String} {e : McpError}
    (h4 : uploadBlobs env owner a.repo a.files = (t4, Except.ok blobs))
    (h5 : buildTreeAndCommit env owner a.repo a.message base p blobs
        = (t5, Except.ok newSha))
    (h6 : updateBranch env owner a.repo branch newSha = (t6, Except.error e)) :
    runFromTip env a owner branch p base = (t4 ++ t5 ++ t6, Except.error e) := by
  unfold runFromTip
  simp only [h4, h5, h6]

lemma runFromTip_update_ok {env : Env} {a : CreateCommitArgs}
    {owner branch p base : String} {t4 t5 t6 : List ApiCall}
    {blobs : List BlobEntry} {newSha : String}
    (h4 : uploadBlobs env owner a.repo a.files = (t4, Except.ok blobs))
    (h5 : buildTreeAndCommit env owner a.repo a.message base p blobs
        = (t5, Except.ok newSha))
    (h6 : updateBranch env owner a.repo branch newSha = (t6, Except.ok ())) :
    runFromTip env a owner branch p base
      = (t4 ++ t5 ++ t6, Except.ok (mkPayload owner a branch newSha)) := by
  unfold runFromTip
  simp only [h4, h5, h6]

lemma updateBranch_cases (env : Env) (o r b sha : String) :
    (env.updateRef o r ("heads/" ++ b) sha = Except.ok () ∧
      updateBranch env o r b sha
        = ([ApiCall.updateRef o r ("heads/" ++ b) sha], Except.ok ())) ∨
    ∃ e, env.updateRef o r ("heads/" ++ b) sha = Except.error e ∧
      updateBranch env o r b sha
        = ([ApiCall.updateRef o r ("heads/" ++ b) sha],
           Except.error ⟨.invalidParams,
             "Failed to update branch reference: " ++ e.message⟩) := by
  unfold updateBranch
  cases h : env.updateRef o r ("heads/" ++ b) sha with
  | ok u => exact Or.inl ⟨rfl, rfl⟩
  | error e => exact Or.inr ⟨e, rfl, rfl⟩

lemma handleValidated_run {env : Env} {a : CreateCommitArgs}
    {t1 : List ApiCall} {owner : String} {T : List ApiCall}
    {r : Except McpError SuccessPayload}
    (h : resolveOwner env a.owner = (t1, Except.ok owner))
    (hro : runFromOwner env a owner = (T, r)) :
    handleValidated env a = (t1 ++ T, r) := by
  unfold handleValidated
  simp only [h, hro]

lemma runFromOwner_err {env : Env} {a : CreateCommitArgs} {owner : String}
    {t2 : List ApiCall} {b : String} {t3 : List ApiCall} {e : McpError}
    (hrb : resolveBranch env a.repo owner a.branch = (t2, b))
    (ht : readTip env owner a.repo b = (t3, Except.error e)) :
    runFromOwner env a owner = (t2 ++ t3, Except.error e) := by
  unfold runFromOwner
  simp only [hrb, ht]

lemma runFromOwner_ok {env : Env} {a : CreateCommitArgs} {owner : String}
    {t2 : List ApiCall} {b : String} {t3 : List ApiCall} {p ts : String}
    {T : List ApiCall} {r : Except McpError SuccessPayload}
    (hrb : resolveBranch env a.repo owner a.branch = (t2, b))
    (ht : readTip env owner a.repo b = (t3, Except.ok (p, ts)))
    (hrt : runFromTip env a owner b p ts = (T, r)) :
    runFromOwner env a owner = (t2 ++ t3 ++ T, r) := by
  unfold runFromOwner
  simp only [hrb, ht, hrt]

lemma counts_of_decomp (k : CallKind) (hk : k ≠ CallKind.createBlobK)
    (o r : String) (files : List FileChange)
    {t1 t2 t3 t4 t5 t6 : List ApiCall}
    (h1 : t1 = [] ∨ t1 = [ApiCall.getAuthenticated])
    (h2 : t2 = [] ∨ t2 = [ApiCall.reposGet o r])
    (h3 : t3 = [] ∨ (∃ rf, t3 = [ApiCall.getRef o r rf]) ∨
          ∃ rf s, t3 = [ApiCall.getRef o r rf, ApiCall.getCommit o r s])
    (h4 : t4 = [] ∨ t4 = files.map fun f => ApiCall.createBlob o r f.content "utf-8")
    (h5 : t5 = [] ∨ (∃ base blobs, t5 = [ApiCall.createTree o r base blobs]) ∨
          ∃ base blobs m ts p, t5 = [ApiCall.createTree o r base blobs,
            ApiCall.createCommit o r m ts [p]])
    (h6 : t6 = [] ∨ ∃ rf s, t6 = [ApiCall.updateRef o r rf s]) :
    countKind k (t1 ++ (t2 ++ (t3 ++ (t4 ++ (t5 ++ t6))))) ≤ 1 := by
  have b1 : countKind k t1 ≤ if k = CallKind.getAuthK then 1 else 0 := by
    rcases h1 with rfl | rfl
    · simp [countKind]
    · rw [countKind_single]; cases k <;> simp [ApiCall.kind]
  have b2 : countKind k t2 ≤ if k = CallKind.reposGetK then 1 else 0 := by
    rcases h2 with rfl | rfl
    · simp [countKind]
    · rw [countKind_single]; cases k <;> simp [ApiCall.kind]
  have b3 : countKind k t3 ≤ (if k = CallKind.getRefK then 1 else 0) +
      (if k = CallKind.getCommitK then 1 else 0) := by
    rcases h3 with rfl | ⟨rf, rfl⟩ | ⟨rf, s, rfl⟩
    · simp [countKind]
    · rw [countKind_single]; cases k <;> simp [ApiCall.kind]
    · rw [countKind_pair]; cases k <;> simp [ApiCall.kind]
  have b4 : countKind k t4 = 0 := by
    rcases h4 with rfl | rfl
    · simp [countKind]
    · rw [countKind_blob_map]; exact if_neg hk
  have b5 : countKind k t5 ≤ (if k = CallKind.createTreeK then 1 else 0) +
      (if k = CallKind.createCommitK then 1 else 0) := by
    rcases h5 with rfl | ⟨base, blobs, rfl⟩ | ⟨base, blobs, m, ts, p, rfl⟩
    · simp [countKind]
    · rw [countKind_single]; cases k <;> simp [ApiCall.kind]
    · rw [countKind_pair]; cases k <;> simp [ApiCall.kind]
  have b6 : countKind k t6 ≤ if k = CallKind.updateRefK then 1 else 0 := by
    rcases h6 with rfl | ⟨rf, s, rfl⟩
    · simp [countKind]
    · rw [countKind_single]; cases k <;> simp [ApiCall.kind]
  rw [countKind_append, countKind_append, countKind_append, countKind_append,
    countKind_append, b4]
  refine le_trans
    (Nat.add_le_add b1 (Nat.add_le_add b2 (Nat.add_le_add b3
      (Nat.add_le_add le_rfl (Nat.add_le_add b5 b6))))) ?_
  cases k <;> simp

lemma blob_of_decomp (o r : String) (t4 : List ApiCall)
    {t1 t2 t3 t5 t6 : List ApiCall}
    (h1 : t1 = [] ∨ t1 = [ApiCall.getAuthenticated])
    (h2 : t2 = [] ∨ t2 = [ApiCall.reposGet o r])
    (h3 : t3 = [] ∨ (∃ rf, t3 = [ApiCall.getRef o r rf]) ∨
          ∃ rf s, t3 = [ApiCall.getRef o r rf, ApiCall.getCommit o r s])
    (h5 : t5 = [] ∨ (∃ base blobs, t5 = [ApiCall.createTree o r base blobs]) ∨
          ∃ base blobs m ts p, t5 = [ApiCall.createTree o r base blobs,
            ApiCall.createCommit o r m ts [p]])
    (h6 : t6 = [] ∨ ∃ rf s, t6 = [ApiCall.updateRef o r rf s]) :
    countKind CallKind.createBlobK (t1 ++ (t2 ++ (t3 ++ (t4 ++ (t5 ++ t6)))))
      = countKind CallKind.createBlobK t4 := by
  have z1 : countKind CallKind.createBlobK t1 = 0 := by
    rcases h1 with rfl | rfl <;> simp [countKind, List.countP_cons, ApiCall.kind]
  have z2 : countKind CallKind.createBlobK t2 = 0 := by
    rcases h2 with rfl | rfl <;> simp [countKind, List.countP_cons, ApiCall.kind]
  have z3 : countKind CallKind.createBlobK t3 = 0 := by
    rcases h3 with rfl | ⟨rf, rfl⟩ | ⟨rf, s, rfl⟩ <;>
      simp [countKind, List.countP_cons, ApiCall.kind]
  have z5 : countKind CallKind.createBlobK t5 = 0 := by
    rcases h5 with rfl | ⟨base, blobs, rfl⟩ | ⟨base, blobs, m, ts, p, rfl⟩ <;>
      simp [countKind, List.countP_cons, ApiCall.kind]
  have z6 : countKind CallKind.createBlobK t6 = 0 := by
    rcases h6 with rfl | ⟨rf, s, rfl⟩ <;>
      simp [countKind, List.countP_cons, ApiCall.kind]
  rw [countKind_append, countKind_append, countKind_append, countKind_append,
    countKind_append, z1, z2, z3, z5, z6]
  omega

lemma upd_of_decomp (o r : String) (files : List FileChange)
    {t1 t2 t3 t4 t5 : List ApiCall}
    (h1 : t1 = [] ∨ t1 = [ApiCall.getAuthenticated])
    (h2 : t2 = [] ∨ t2 = [ApiCall.reposGet o r])
    (h3 : t3 = [] ∨ (∃ rf, t3 = [ApiCall.getRef o r rf]) ∨
          ∃ rf s, t3 = [ApiCall.getRef o r rf, ApiCall.getCommit o r s])
    (h4 : t4 = [] ∨ t4 = files.map fun f => ApiCall.createBlob o r f.content "utf-8")
    (h5 : t5 = [] ∨ (∃ base blobs, t5 = [ApiCall.createTree o r base blobs]) ∨
          ∃ base blobs m ts p, t5 = [ApiCall.createTree o r base blobs,
            ApiCall.createCommit o r m ts [p]]) :
    countKind CallKind.updateRefK (t1 ++ (t2 ++ (t3 ++ (t4 ++ t5)))) = 0 := by
  have z1 : countKind CallKind.updateRefK t1 = 0 := by
    rcases h1 with rfl | rfl <;> simp [countKind, List.countP_cons, ApiCall.kind]
  have z2 : countKind CallKind.updateRefK t2 = 0 := by
    rcases h2 with rfl | rfl <;> simp [countKind, List.countP_cons, ApiCall.kind]
  have z3 : countKind CallKind.updateRefK t3 = 0 := by
    rcases h3 with rfl | ⟨rf, rfl⟩ | ⟨rf, s, rfl⟩ <;>
      simp [countKind, List.countP_cons, ApiCall.kind]
  have z4 : countKind CallKind.updateRefK t4 = 0 := by
    rcases h4 with rfl | rfl
    · simp [countKind]
    · rw [countKind_blob_map]; simp
  have z5 : countKind CallKind.updateRefK t5 = 0 := by
    rcases h5 with rfl | ⟨base, blobs, rfl⟩ | ⟨base, blobs, m, ts, p, rfl⟩ <;>
      simp [countKind, List.countP_cons, ApiCall.kind]
  rw [countKind_append, countKind_append, countKind_append, countKind_append,
    z1, z2, z3, z4, z5]

lemma handleValidated_facts (env : Env) (a : CreateCommitArgs) :
    (∀ k, k ≠ CallKind.createBlobK → countKind k (handleValidated env a).1 ≤ 1) ∧
    (countKind CallKind.createBlobK (handleValidated env a).1 = 0 ∨
      countKind CallKind.createBlobK (handleValidated env a).1 = a.files.length) ∧
    (∀ c ∈ (handleValidated env a).1, c.kind = CallKind.updateRefK →
      (handleValidated env a).1.getLast? = some c) ∧
    ((∀ o2 r2 rf2 s2, env.updateRef o2 r2 rf2 s2 = Except.ok ()) →
      exceptIsError (handleValidated env a).2 = true →
      countKind CallKind.updateRefK (handleValidated env a).1 = 0) := by
  rcases ho : resolveOwner env a.owner with ⟨t1, r1⟩
  have h1 : t1 = [] ∨ t1 = [ApiCall.getAuthenticated] := by
    have := resolveOwner_trace env a.owner; rwa [ho] at this
  cases r1 with
  | error e =>
    have hrun : handleValidated env a = (t1, Except.error e) :=
      handleValidated_owner_error ho
    have hz : countKind CallKind.updateRefK t1 = 0 := by
      simpa using upd_of_decomp "" "" [] h1 (Or.inl rfl) (Or.inl rfl)
        (Or.inl rfl) (Or.inl rfl)
    simp only [hrun]
    refine ⟨fun k hk => ?_, Or.inl ?_, fun c hc hck => ?_, fun _ _ => hz⟩
    · simpa using counts_of_decomp k hk "" "" [] h1 (Or.inl rfl) (Or.inl rfl)
        (Or.inl rfl) (Or.inl rfl) (Or.inl rfl)
    · simpa using blob_of_decomp "" "" [] h1 (Or.inl rfl) (Or.inl rfl)
        (Or.inl rfl) (Or.inl rfl)
    · exact absurd hck (countKind_eq_zero hz c hc)
  | ok owner =>
    rcases hrb : resolveBranch env a.repo owner a.branch with ⟨t2, b⟩
    have h2 : t2 = [] ∨ t2 = [ApiCall.reposGet owner a.repo] := by
      have := resolveBranch_trace env a.repo owner a.branch; rwa [hrb] at this
    rcases ht : readTip env owner a.repo b with ⟨t3, r3⟩
    have h3 := readTip_trace env owner a.repo b
    rw [ht] at h3
    have h3' : t3 = [] ∨ (∃ rf, t3 = [ApiCall.getRef owner a.repo rf]) ∨
        ∃ rf s, t3 = [ApiCall.getRef owner a.repo rf, ApiCall.getCommit owner a.repo s] := by
      rcases h3 with h | ⟨s, h⟩
      · exact Or.inr (Or.inl ⟨_, h⟩)
      · exact Or.inr (Or.inr ⟨_, s, h⟩)
    cases r3 with
    | error e =>
      have hrun : handleValidated env a = (t1 ++ (t2 ++ t3), Except.error e) :=
        handleValidated_run ho (runFromOwner_err hrb ht)
      have hz : countKind CallKind.updateRefK (t1 ++ (t2 ++ t3)) = 0 := by
        simpa using upd_of_decomp owner a.repo [] h1 h2 h3' (Or.inl rfl) (Or.inl rfl)
      simp only [hrun]
      refine ⟨fun k hk => ?_, Or.inl ?_, fun c hc hck => ?_, fun _ _ => hz⟩
      · simpa using counts_of_decomp k hk owner a.repo [] h1 h2 h3'
          (Or.inl rfl) (Or.inl rfl) (Or.inl rfl)
      · simpa using blob_of_decomp owner a.repo [] h1 h2 h3' (Or.inl rfl) (Or.inl rfl)
      · exact absurd hck (countKind_eq_zero hz c hc)
    | ok pts =>
      obtain ⟨p, ts⟩ := pts
      rcases hub : uploadBlobs env owner a.repo a.files with ⟨t4, r4⟩
      have h4t : t4 = a.files.map fun f => ApiCall.createBlob owner a.repo f.content "utf-8" := by
        have := uploadBlobs_trace env owner a.repo a.files
        rw [hub] at this
        simpa using this
      cases r4 with
      | error e =>
        have hrun : handleValidated env a = (t1 ++ (t2 ++ t3 ++ t4), Except.error e) :=
          handleValidated_run ho (runFromOwner_ok hrb ht (runFromTip_blob_error hub))
        have hz : countKind CallKind.updateRefK (t1 ++ (t2 ++ t3 ++ t4)) = 0 := by
          simpa using upd_of_decomp owner a.repo a.files h1 h2 h3' (Or.inr h4t) (Or.inl rfl)
        simp only [hrun]
        refine ⟨fun k hk => ?_, Or.inr ?_, fun c hc hck => ?_, fun _ _ => hz⟩
        · simpa using counts_of_decomp k hk owner a.repo a.files h1 h2 h3'
            (Or.inr h4t) (Or.inl rfl) (Or.inl rfl)
        · have hb := blob_of_decomp owner a.repo t4 h1 h2 h3' (Or.inl rfl) (Or.inl rfl)
          have hb2 : countKind CallKind.createBlobK t4 = a.files.length := by
            rw [h4t, countKind_blob_map]; simp
          rw [hb2] at hb
          simpa using hb
        · exact absurd hck (countKind_eq_zero hz c hc)
      | ok blobs =>
        rcases hbt : buildTreeAndCommit env owner a.repo a.message ts p blobs with ⟨t5, r5⟩
        have h5 := buildTreeAndCommit_trace env owner a.repo a.message ts p blobs
        rw [hbt] at h5
        have h5' : t5 = [] ∨
            (∃ base bl, t5 = [ApiCall.createTree owner a.repo base bl]) ∨
            ∃ base bl m ts2 p2, t5 = [ApiCall.createTree owner a.repo base bl,
              ApiCall.createCommit owner a.repo m ts2 [p2]] := by
          rcases h5 with h | h | ⟨ts2, h⟩
          · exact Or.inl h
          · exact Or.inr (Or.inl ⟨_, _, h⟩)
          · exact Or.inr (Or.inr ⟨_, _, _, _, _, h⟩)
        cases r5 with
        | error e =>
          have hrun : handleValidated env a
              = (t1 ++ (t2 ++ t3 ++ (t4 ++ t5)), Except.error e) :=
            handleValidated_run ho (runFromOwner_ok hrb ht (runFromTip_build_error hub hbt))
          have hz : countKind CallKind.updateRefK (t1 ++ (t2 ++ t3 ++ (t4 ++ t5))) = 0 := by
            simpa using upd_of_decomp owner a.repo a.files h1 h2 h3' (Or.inr h4t) h5'
          simp only [hrun]
          refine ⟨fun k hk => ?_, Or.inr ?_, fun c hc hck => ?_, fun _ _ => hz⟩
          · simpa using counts_of_decomp k hk owner a.repo a.files h1 h2 h3'
              (Or.inr h4t) h5' (Or.inl rfl)
          · have hb := blob_of_decomp owner a.repo t4 h1 h2 h3' h5' (Or.inl rfl)
            have hb2 : countKind CallKind.createBlobK t4 = a.files.length := by
              rw [h4t, countKind_blob_map]; simp
            rw [hb2] at hb
            simpa using hb
          · exact absurd hck (countKind_eq_zero hz c hc)
        | ok newSha =>
          rcases updateBranch_cases env owner a.repo b newSha with
            ⟨hok, hueq⟩ | ⟨e0, herr0, hueq⟩
          · -- branch update succeeds: success leaf
            have hrun : handleValidated env a
                = (t1 ++ (t2 ++ t3 ++ (t4 ++ t5 ++
                    [ApiCall.updateRef owner a.repo ("heads/" ++ b) newSha])),
                   Except.ok (mkPayload owner a b newSha)) :=
              handleValidated_run ho (runFromOwner_ok hrb ht
                (runFromTip_update_ok hub hbt hueq))
            have hz : countKind CallKind.updateRefK (t1 ++ (t2 ++ (t3 ++ (t4 ++ t5)))) = 0 :=
              upd_of_decomp owner a.repo a.files h1 h2 h3' (Or.inr h4t) h5'
            simp only [hrun]
            refine ⟨fun k hk => ?_, Or.inr ?_, fun c hc hck => ?_, fun _ herr => ?_⟩
            · simpa using counts_of_decomp k hk owner a.repo a.files h1 h2 h3'
                (Or.inr h4t) h5' (Or.inr ⟨_, _, rfl⟩)
            · have hb := blob_of_decomp owner a.repo t4 h1 h2 h3'  h5'
                (Or.inr ⟨("heads/" ++ b), newSha, rfl⟩)
              have hb2 : countKind CallKind.createBlobK t4 = a.files.length := by
                rw [h4t, countKind_blob_map]; simp
              rw [hb2] at hb
              simpa using hb
            · have hlast : (t1 ++ (t2 ++ t3 ++ (t4 ++ t5 ++
                  [ApiCall.updateRef owner a.repo ("heads/" ++ b) newSha]))).getLast?
                  = some (ApiCall.updateRef owner a.repo ("heads/" ++ b) newSha) := by
                rw [show t1 ++ (t2 ++ t3 ++ (t4 ++ t5 ++
                    [ApiCall.updateRef owner a.repo ("heads/" ++ b) newSha]))
                    = (t1 ++ (t2 ++ t3) ++ (t4 ++ t5)) ++
                      [ApiCall.updateRef owner a.repo ("heads/" ++ b) newSha] from by
                  simp [List.append_assoc]]
                exact List.getLast?_concat _
              simp only [List.mem_append, List.mem_singleton] at hc
              rcases hc with h | (h | h) | (h | h) | h
              · exact absurd hck (countKind_eq_zero hz c (by simp [h]))
              · exact absurd hck (countKind_eq_zero hz c (by simp [h]))
              · exact absurd hck (countKind_eq_zero hz c (by simp [h]))
              · exact absurd hck (countKind_eq_zero hz c (by simp [h]))
              · exact absurd hck (countKind_eq_zero hz c (by simp [h]))
              · subst h; exact hlast
            · exact absurd herr (by simp [exceptIsError])
          · -- branch update fails
            have hrun : handleValidated env a
                = (t1 ++ (t2 ++ t3 ++ (t4 ++ t5 ++
                    [ApiCall.updateRef owner a.repo ("heads/" ++ b) newSha])),
                   Except.error ⟨.invalidParams,
                     "Failed to update branch reference: " ++ e0.message⟩) :=
              handleValidated_run ho (runFromOwner_ok hrb ht
                (runFromTip_update_error hub hbt hueq))
            have hz : countKind CallKind.updateRefK (t1 ++ (t2 ++ (t3 ++ (t4 ++ t5)))) = 0 :=
              upd_of_decomp owner a.repo a.files h1 h2 h3' (Or.inr h4t) h5'
            simp only [hrun]
            refine ⟨fun k hk => ?_, Or.inr ?_, fun c hc hck => ?_, fun hup _ => ?_⟩
            · simpa using counts_of_decomp k hk owner a.repo a.files h1 h2 h3'
                (Or.inr h4t) h5' (Or.inr ⟨_, _, rfl⟩)
            · have hb := blob_of_decomp owner a.repo t4 h1 h2 h3' h5'
                (Or.inr ⟨("heads/" ++ b), newSha, rfl⟩)
              have hb2 : countKind CallKind.createBlobK t4 = a.files.length := by
                rw [h4t, countKind_blob_map]; simp
              rw [hb2] at hb
              simpa using hb
            · have hlast : (t1 ++ (t2 ++ t3 ++ (t4 ++ t5 ++
                  [ApiCall.updateRef owner a.repo ("heads/" ++ b) newSha]))).getLast?
                  = some (ApiCall.updateRef owner a.repo ("heads/" ++ b) newSha) := by
                rw [show t1 ++ (t2 ++ t3 ++ (t4 ++ t5 ++
                    [ApiCall.updateRef owner a.repo ("heads/" ++ b) newSha]))
                    = (t1 ++ (t2 ++ t3) ++ (t4 ++ t5)) ++
                      [ApiCall.updateRef owner a.repo ("heads/" ++ b) newSha] from by
                  simp [List.append_assoc]]
                exact List.getLast?_concat _
              simp only [List.mem_append, List.mem_singleton] at hc
              rcases hc with h | (h | h) | (h | h) | h
              · exact absurd hck (countKind_eq_zero hz c (by simp [h]))
              · exact absurd hck (countKind_eq_zero hz c (by simp [h]))
              · exact absurd hck (countKind_eq_zero hz c (by simp [h]))
              · exact absurd hck (countKind_eq_zero hz c (by simp [h]))
              · exact absurd hck (countKind_eq_zero hz c (by simp [h]))
              · subst h; exact hlast
            · have := hup owner a.repo ("heads/" ++ b) newSha
              rw [this] at herr0
              exact absurd herr0 (by simp)

/-! ## Claim theorems -/

/-- Claim C1: for every create_commit invocation, if any step before the
Branch Updater fails (modelled: an environment whose reference updates
would all succeed, yet the run errors), the handler raises an error and
no branch-reference update request appears in the trace; moreover any
`updateRef` request is the last call of its trace and occurs at most
once, so branch-visible history can change only at the final updateRef
step, the sole reference-mutating call of the pipeline. -/
theorem create_commit_updateRef_last_and_absent_on_failure
    (env : Env) (raw : JSValue) :
    ((∀ o r rf s, env.updateRef o r rf s = Except.ok ()) →
      exceptIsError (handleCreateCommit env raw).2 = true →
      countKind CallKind.updateRefK (handleCreateCommit env raw).1 = 0) ∧
    (∀ c ∈ (handleCreateCommit env raw).1, c.kind = CallKind.updateRefK →
      (handleCreateCommit env raw).1.getLast? = some c) ∧
    countKind CallKind.updateRefK (handleCreateCommit env raw).1 ≤ 1 ∧
    (∀ t1 e, isValidCreateCommitArgs raw = true →
      resolveOwner env (extractArgs raw).owner = (t1, Except.error e) →
      (handleCreateCommit env raw).2 = Except.error e ∧
      countKind CallKind.updateRefK (handleCreateCommit env raw).1 = 0) ∧
    (∀ t1 owner t2 b t3 e, isValidCreateCommitArgs raw = true →
      resolveOwner env (extractArgs raw).owner = (t1, Except.ok owner) →
      resolveBranch env (extractArgs raw).repo owner (extractArgs raw).branch = (t2, b) →
      readTip env owner (extractArgs raw).repo b = (t3, Except.error e) →
      (handleCreateCommit env raw).2 = Except.error e ∧
      countKind CallKind.updateRefK (handleCreateCommit env raw).1 = 0) ∧
    (∀ t1 owner t2 b t3 p ts t4 e, isValidCreateCommitArgs raw = true →
      resolveOwner env (extractArgs raw).owner = (t1, Except.ok owner) →
      resolveBranch env (extractArgs raw).repo owner (extractArgs raw).branch = (t2, b) →
      readTip env owner (extractArgs raw).repo b = (t3, Except.ok (p, ts)) →
      uploadBlobs env owner (extractArgs raw).repo (extractArgs raw).files
        = (t4, Except.error e) →
      (handleCreateCommit env raw).2 = Except.error e ∧
      countKind CallKind.updateRefK (handleCreateCommit env raw).1 = 0) ∧
    (∀ t1 owner t2 b t3 p ts t4 blobs t5 e, isValidCreateCommitArgs raw = true →
      resolveOwner env (extractArgs raw).owner = (t1, Except.ok owner) →
      resolveBranch env (extractArgs raw).repo owner (extractArgs raw).branch = (t2, b) →
      readTip env owner (extractArgs raw).repo b = (t3, Except.ok (p, ts)) →
      uploadBlobs env owner (extractArgs raw).repo (extractArgs raw).files
        = (t4, Except.ok blobs) →
      buildTreeAndCommit env owner (extractArgs raw).repo (extractArgs raw).message
        ts p blobs = (t5, Except.error e) →
      (handleCreateCommit env raw).2 = Except.error e ∧
      countKind CallKind.updateRefK (handleCreateCommit env raw).1 = 0) := by
  refine ⟨?_, ?_, ?_, ?_, ?_, ?_, ?_⟩
  · unfold handleCreateCommit
    cases hv : isValidCreateCommitArgs raw
    · simp [countKind]
    · simp only [eq_self_iff_true, if_true]
      exact (handleValidated_facts env (extractArgs raw)).2.2.2
  · unfold handleCreateCommit
    cases hv : isValidCreateCommitArgs raw
    · simp [countKind]
    · simp only [eq_self_iff_true, if_true]
      exact (handleValidated_facts env (extractArgs raw)).2.2.1
  · unfold handleCreateCommit
    cases hv : isValidCreateCommitArgs raw
    · simp [countKind]
    · simp only [eq_self_iff_true, if_true]
      exact (handleValidated_facts env (extractArgs raw)).1 CallKind.updateRefK (by simp)
  · intro t1 e hv ho
    have h1 : t1 = [] ∨ t1 = [ApiCall.getAuthenticated] := by
      have := resolveOwner_trace env (extractArgs raw).owner; rwa [ho] at this
    have hrun : handleValidated env (extractArgs raw) = (t1, Except.error e) :=
      handleValidated_owner_error ho
    unfold handleCreateCommit
    simp only [hv, eq_self_iff_true, if_true, hrun]
    refine ⟨trivial, ?_⟩
    simpa using upd_of_decomp "" "" [] h1 (Or.inl rfl) (Or.inl rfl)
      (Or.inl rfl) (Or.inl rfl)
  · intro t1 owner t2 b t3 e hv ho hrb ht
    have h1 : t1 = [] ∨ t1 = [ApiCall.getAuthenticated] := by
      have := resolveOwner_trace env (extractArgs raw).owner; rwa [ho] at this
    have h2 : t2 = [] ∨ t2 = [ApiCall.reposGet owner (extractArgs raw).repo] := by
      have := resolveBranch_trace env (extractArgs raw).repo owner (extractArgs raw).branch
      rwa [hrb] at this
    have h3 := readTip_trace env owner (extractArgs raw).repo b
    rw [ht] at h3
    have h3d : t3 = [] ∨ (∃ rf, t3 = [ApiCall.getRef owner (extractArgs raw).repo rf]) ∨
        ∃ rf s, t3 = [ApiCall.getRef owner (extractArgs raw).repo rf,
          ApiCall.getCommit owner (extractArgs raw).repo s] := by
      rcases h3 with h | ⟨s, h⟩
      · exact Or.inr (Or.inl ⟨_, h⟩)
      · exact Or.inr (Or.inr ⟨_, s, h⟩)
    have hrun : handleValidated env (extractArgs raw)
        = (t1 ++ (t2 ++ t3), Except.error e) :=
      handleValidated_run ho (runFromOwner_err hrb ht)
    unfold handleCreateCommit
    simp only [hv, eq_self_iff_true, if_true, hrun]
    refine ⟨trivial, ?_⟩
    simpa using upd_of_decomp owner (extractArgs raw).repo [] h1 h2 h3d
      (Or.inl rfl) (Or.inl rfl)
  · intro t1 owner t2 b t3 p ts t4 e hv ho hrb ht hub
    have h1 : t1 = [] ∨ t1 = [ApiCall.getAuthenticated] := by
      have := resolveOwner_trace env (extractArgs raw).owner; rwa [ho] at this
    have h2 : t2 = [] ∨ t2 = [ApiCall.reposGet owner (extractArgs raw).repo] := by
      have := resolveBranch_trace env (extractArgs raw).repo owner (extractArgs raw).branch
      rwa [hrb] at this
    have h3 := readTip_trace env owner (extractArgs raw).repo b
    rw [ht] at h3
    have h3d : t3 = [] ∨ (∃ rf, t3 = [ApiCall.getRef owner (extractArgs raw).repo rf]) ∨
        ∃ rf s, t3 = [ApiCall.getRef owner (extractArgs raw).repo rf,
          ApiCall.getCommit owner (extractArgs raw).repo s] := by
      rcases h3 with h | ⟨s, h⟩
      · exact Or.inr (Or.inl ⟨_, h⟩)
      · exact Or.inr (Or.inr ⟨_, s, h⟩)
    have h4t : t4 = (extractArgs raw).files.map
        fun f => ApiCall.createBlob owner (extractArgs raw).repo f.content "utf-8" := by
      have := uploadBlobs_trace env owner (extractArgs raw).repo (extractArgs raw).files
      rw [hub] at this
      simpa using this
    have hrun : handleValidated env (extractArgs raw)
        = (t1 ++ (t2 ++ t3 ++ t4), Except.error e) :=
      handleValidated_run ho (runFromOwner_ok hrb ht (runFromTip_blob_error hub))
    unfold handleCreateCommit
    simp only [hv, eq_self_iff_true, if_true, hrun]
    refine ⟨trivial, ?_⟩
    simpa using upd_of_decomp owner (extractArgs raw).repo (extractArgs raw).files
      h1 h2 h3d (Or.inr h4t) (Or.inl rfl)
  · intro t1 owner t2 b t3 p ts t4 blobs t5 e hv ho hrb ht hub hbt
    have h1 : t1 = [] ∨ t1 = [ApiCall.getAuthenticated] := by
      have := resolveOwner_trace env (extractArgs raw).owner; rwa [ho] at this
    have h2 : t2 = [] ∨ t2 = [ApiCall.reposGet owner (extractArgs raw).repo] := by
      have := resolveBranch_trace env (extractArgs raw).repo owner (extractArgs raw).branch
      rwa [hrb] at this
    have h3 := readTip_trace env owner (extractArgs raw).repo b
    rw [ht] at h3
    have h3d : t3 = [] ∨ (∃ rf, t3 = [ApiCall.getRef owner (extractArgs raw).repo rf]) ∨
        ∃ rf s, t3 = [ApiCall.getRef owner (extractArgs raw).repo rf,
          ApiCall.getCommit owner (extractArgs raw).repo s] := by
      rcases h3 with h | ⟨s, h⟩
      · exact Or.inr (Or.inl ⟨_, h⟩)
      · exact Or.inr (Or.inr ⟨_, s, h⟩)
    have h4t : t4 = (extractArgs raw).files.map
        fun f => ApiCall.createBlob owner (extractArgs raw).repo f.content "utf-8" := by
      have := uploadBlobs_trace env owner (extractArgs raw).repo (extractArgs raw).files
      rw [hub] at this
      simpa using this
    have h5 := buildTreeAndCommit_trace env owner (extractArgs raw).repo
      (extractArgs raw).message ts p blobs
    rw [hbt] at h5
    have h5d : t5 = [] ∨
        (∃ base bl, t5 = [ApiCall.createTree owner (extractArgs raw).repo base bl]) ∨
        ∃ base bl m ts2 p2, t5 = [ApiCall.createTree owner (extractArgs raw).repo base bl,
          ApiCall.createCommit owner (extractArgs raw).repo m ts2 [p2]] := by
      rcases h5 with h | h | ⟨ts2, h⟩
      · exact Or.inl h
      · exact Or.inr (Or.inl ⟨_, _, h⟩)
      · exact Or.inr (Or.inr ⟨_, _, _, _, _, h⟩)
    have hrun : handleValidated env (extractArgs raw)
        = (t1 ++ (t2 ++ t3 ++ (t4 ++ t5)), Except.error e) :=
      handleValidated_run ho (runFromOwner_ok hrb ht (runFromTip_build_error hub hbt))
    unfold handleCreateCommit
    simp only [hv, eq_self_iff_true, if_true, hrun]
    refine ⟨trivial, ?_⟩
    simpa using upd_of_decomp owner (extractArgs raw).repo (extractArgs raw).files
      h1 h2 h3d (Or.inr h4t) h5d

theorem create_commit_updateRef_witness :
    countKind CallKind.updateRefK (handleCreateCommit envRefFail rawOneFile).1 = 0 :=
  (create_commit_updateRef_last_and_absent_on_failure envRefFail rawOneFile).1
    (fun _ _ _ _ => rfl) (by decide)

/-- Claim C2: every pipeline step of create_commit is attempted at most
once (no retry anywhere; the blob fan-out issues exactly one upload per
file), and a failing stage's error is passed to the caller verbatim by
the orchestrator — whichever stage fails first determines the result
unchanged, the only message shaping being the failing stage's own catch
block (embedded inside the stage functions, exactly as in the source's
try/catch blocks). -/
theorem create_commit_single_attempt_error_passthrough
    (env : Env) (raw : JSValue) :
    (∀ k, k ≠ CallKind.createBlobK →
      countKind k (handleCreateCommit env raw).1 ≤ 1) ∧
    (countKind CallKind.createBlobK (handleCreateCommit env raw).1 = 0 ∨
      countKind CallKind.createBlobK (handleCreateCommit env raw).1
        = (extractArgs raw).files.length) ∧
    (∀ t1 e, isValidCreateCommitArgs raw = true →
      resolveOwner env (extractArgs raw).owner = (t1, Except.error e) →
      (handleCreateCommit env raw).2 = Except.error e) ∧
    (∀ t1 owner t2 b t3 e, isValidCreateCommitArgs raw = true →
      resolveOwner env (extractArgs raw).owner = (t1, Except.ok owner) →
      resolveBranch env (extractArgs raw).repo owner (extractArgs raw).branch = (t2, b) →
      readTip env owner (extractArgs raw).repo b = (t3, Except.error e) →
      (handleCreateCommit env raw).2 = Except.error e) ∧
    (∀ t1 owner t2 b t3 p ts t4 e, isValidCreateCommitArgs raw = true →
      resolveOwner env (extractArgs raw).owner = (t1, Except.ok owner) →
      resolveBranch env (extractArgs raw).repo owner (extractArgs raw).branch = (t2, b) →
      readTip env owner (extractArgs raw).repo b = (t3, Except.ok (p, ts)) →
      uploadBlobs env owner (extractArgs raw).repo (extractArgs raw).files
        = (t4, Except.error e) →
      (handleCreateCommit env raw).2 = Except.error e) ∧
    (∀ t1 owner t2 b t3 p ts t4 blobs t5 e, isValidCreateCommitArgs raw = true →
      resolveOwner env (extractArgs raw).owner = (t1, Except.ok owner) →
      resolveBranch env (extractArgs raw).repo owner (extractArgs raw).branch = (t2, b) →
      readTip env owner (extractArgs raw).repo b = (t3, Except.ok (p, ts)) →
      uploadBlobs env owner (extractArgs raw).repo (extractArgs raw).files
        = (t4, Except.ok blobs) →
      buildTreeAndCommit env owner (extractArgs raw).repo (extractArgs raw).message
        ts p blobs = (t5, Except.error e) →
      (handleCreateCommit env raw).2 = Except.error e) ∧
    (∀ t1 owner t2 b t3 p ts t4 blobs t5 newSha t6 e,
      isValidCreateCommitArgs raw = true →
      resolveOwner env (extractArgs raw).owner = (t1, Except.ok owner) →
      resolveBranch env (extractArgs raw).repo owner (extractArgs raw).branch = (t2, b) →
      readTip env owner (extractArgs raw).repo b = (t3, Except.ok (p, ts)) →
      uploadBlobs env owner (extractArgs raw).repo (extractArgs raw).files
        = (t4, Except.ok blobs) →
      buildTreeAndCommit env owner (extractArgs raw).repo (extractArgs raw).message
        ts p blobs = (t5, Except.ok newSha) →
      updateBranch env owner (extractArgs raw).repo b newSha = (t6, Except.error e) →
      (handleCreateCommit env raw).2 = Except.error e) := by
  refine ⟨?_, ?_, ?_, ?_, ?_, ?_, ?_⟩
  · intro k hk
    unfold handleCreateCommit
    cases hv : isValidCreateCommitArgs raw
    · simp [countKind]
    · simpa using (handleValidated_facts env (extractArgs raw)).1 k hk
  · unfold handleCreateCommit
    cases hv : isValidCreateCommitArgs raw
    · simp [countKind]
    · simpa using (handleValidated_facts env (extractArgs raw)).2.1
  · intro t1 e hv ho
    have hrun : handleValidated env (extractArgs raw) = (t1, Except.error e) :=
      handleValidated_owner_error ho
    unfold handleCreateCommit
    simp [hv, hrun]
  · intro t1 owner t2 b t3 e hv ho hrb ht
    have hrun : handleValidated env (extractArgs raw)
        = (t1 ++ (t2 ++ t3), Except.error e) :=
      handleValidated_run ho (runFromOwner_err hrb ht)
    unfold handleCreateCommit
    simp [hv, hrun]
  · intro t1 owner t2 b t3 p ts t4 e hv ho hrb ht hub
    have hrun : handleValidated env (extractArgs raw)
        = (t1 ++ (t2 ++ t3 ++ t4), Except.error e) :=
      handleValidated_run ho (runFromOwner_ok hrb ht (runFromTip_blob_error hub))
    unfold handleCreateCommit
    simp [hv, hrun]
  · intro t1 owner t2 b t3 p ts t4 blobs t5 e hv ho hrb ht hub hbt
    have hrun : handleValidated env (extractArgs raw)
        = (t1 ++ (t2 ++ t3 ++ (t4 ++ t5)), Except.error e) :=
      handleValidated_run ho (runFromOwner_ok hrb ht (runFromTip_build_error hub hbt))
    unfold handleCreateCommit
    simp [hv, hrun]
  · intro t1 owner t2 b t3 p ts t4 blobs t5 newSha t6 e hv ho hrb ht hub hbt hu
    have hrun : handleValidated env (extractArgs raw)
        = (t1 ++ (t2 ++ t3 ++ (t4 ++ t5 ++ t6)), Except.error e) :=
      handleValidated_run ho (runFromOwner_ok hrb ht
        (runFromTip_update_error hub hbt hu))
    unfold handleCreateCommit
    simp [hv, hrun]

theorem create_commit_passthrough_witness :
    (handleCreateCommit envAuthFail rawNoOwner).2
      = Except.error ownerResolutionError :=
  (create_commit_single_attempt_error_passthrough envAuthFail rawNoOwner).2.2.1
    [ApiCall.getAuthenticated] ownerResolutionError (by decide) rfl

lemma owner_of_shape1 {t1 : List ApiCall}
    (h : t1 = [] ∨ t1 = [ApiCall.getAuthenticated]) :
    ∀ c ∈ t1, c.callOwner = none := by
  rcases h with rfl | rfl
  · intro c hc; simp at hc
  · intro c hc; rw [List.mem_singleton] at hc; subst hc; rfl

lemma owner_of_shape2 {t : List ApiCall} {o r : String}
    (h : t = [] ∨ t = [ApiCall.reposGet o r]) :
    ∀ c ∈ t, c.callOwner = some o := by
  rcases h with rfl | rfl
  · intro c hc; simp at hc
  · intro c hc; rw [List.mem_singleton] at hc; subst hc; rfl

lemma owner_of_shape3 {t : List ApiCall} {o r rf : String}
    (h : t = [ApiCall.getRef o r rf] ∨
      ∃ s, t = [ApiCall.getRef o r rf, ApiCall.getCommit o r s]) :
    ∀ c ∈ t, c.callOwner = some o := by
  rcases h with rfl | ⟨s, rfl⟩
  · intro c hc; rw [List.mem_singleton] at hc; subst hc; rfl
  · intro c hc
    simp only [List.mem_cons, List.not_mem_nil, or_false] at hc
    rcases hc with rfl | rfl <;> rfl

lemma owner_of_map {o r : String} {files : List FileChange} :
    ∀ c ∈ files.map fun f => ApiCall.createBlob o r f.content "utf-8",
      c.callOwner = some o := by
  intro c hc
  obtain ⟨f, _, rfl⟩ := List.mem_map.mp hc
  rfl

lemma owner_of_single_tree {t : List ApiCall} {o r base : String}
    {blobs : List BlobEntry}
    (h : t = [ApiCall.createTree o r base blobs]) :
    ∀ c ∈ t, c.callOwner = some o := by
  subst h
  intro c hc; rw [List.mem_singleton] at hc; subst hc; rfl

lemma owner_of_tree_commit {t : List ApiCall} {o r base m ts p : String}
    {blobs : List BlobEntry}
    (h : t = [ApiCall.createTree o r base blobs,
              ApiCall.createCommit o r m ts [p]]) :
    ∀ c ∈ t, c.callOwner = some o := by
  subst h
  intro c hc
  simp only [List.mem_cons, List.not_mem_nil, or_false] at hc
  rcases hc with rfl | rfl <;> rfl

lemma handleValidated_owner_calls (env : Env) (a : CreateCommitArgs)
    {t1 : List ApiCall} {owner : String}
    (ho : resolveOwner env a.owner = (t1, Except.ok owner)) :
    ∀ c ∈ (handleValidated env a).1,
      c.callOwner = none ∨ c.callOwner = some owner := by
  have h1 : t1 = [] ∨ t1 = [ApiCall.getAuthenticated] := by
    have := resolveOwner_trace env a.owner; rwa [ho] at this
  have p1 := owner_of_shape1 h1
  rcases hrb : resolveBranch env a.repo owner a.branch with ⟨t2, b⟩
  have h2 : t2 = [] ∨ t2 = [ApiCall.reposGet owner a.repo] := by
    have := resolveBranch_trace env a.repo owner a.branch; rwa [hrb] at this
  have p2 := owner_of_shape2 h2
  rcases ht : readTip env owner a.repo b with ⟨t3, r3⟩
  have h3 := readTip_trace env owner a.repo b
  rw [ht] at h3
  have p3 := owner_of_shape3 h3
  cases r3 with
  | error e =>
    rw [handleValidated_run ho (runFromOwner_err hrb ht)]
    intro c hc
    simp only [List.mem_append] at hc
    rcases hc with h | h | h
    · exact Or.inl (p1 c h)
    · exact Or.inr (p2 c h)
    · exact Or.inr (p3 c h)
  | ok pts =>
    obtain ⟨p, ts⟩ := pts
    rcases hub : uploadBlobs env owner a.repo a.files with ⟨t4, r4⟩
    have h4t : t4 = a.files.map fun f => ApiCall.createBlob owner a.repo f.content "utf-8" := by
      have := uploadBlobs_trace env owner a.repo a.files
      rw [hub] at this
      simpa using this
    have p4 : ∀ c ∈ t4, c.callOwner = some owner := by
      rw [h4t]; exact owner_of_map
    cases r4 with
    | error e =>
      rw [handleValidated_run ho (runFromOwner_ok hrb ht (runFromTip_blob_error hub))]
      intro c hc
      simp only [List.mem_append] at hc
      rcases hc with h | (h | h) | h
      · exact Or.inl (p1 c h)
      · exact Or.inr (p2 c h)
      · exact Or.inr (p3 c h)
      · exact Or.inr (p4 c h)
    | ok blobs =>
      rcases hbt : buildTreeAndCommit env owner a.repo a.message ts p blobs with ⟨t5, r5⟩
      have h5 := buildTreeAndCommit_trace env owner a.repo a.message ts p blobs
      rw [hbt] at h5
      have h5' : t5 = [] ∨ t5 = [ApiCall.createTree owner a.repo ts blobs] ∨
          ∃ ts2, t5 = [ApiCall.createTree owner a.repo ts blobs,
            ApiCall.createCommit owner a.repo a.message ts2 [p]] := h5
      have p5 : ∀ c ∈ t5, c.callOwner = some owner := by
        rcases h5' with h | h | ⟨ts2, h⟩
        · subst h; intro c hc; simp at hc
        · exact owner_of_single_tree h
        · exact owner_of_tree_commit h
      cases r5 with
      | error e =>
        rw [handleValidated_run ho (runFromOwner_ok hrb ht (runFromTip_build_error hub hbt))]
        intro c hc
        simp only [List.mem_append] at hc
        rcases hc with h | (h | h) | h | h
        · exact Or.inl (p1 c h)
        · exact Or.inr (p2 c h)
        · exact Or.inr (p3 c h)
        · exact Or.inr (p4 c h)
        · exact Or.inr (p5 c h)
      | ok newSha =>
        rcases updateBranch_cases env owner a.repo b newSha with
          ⟨hok, hueq⟩ | ⟨e0, herr0, hueq⟩ <;>
        · first
          | rw [handleValidated_run ho (runFromOwner_ok hrb ht
                (runFromTip_update_ok hub hbt hueq))]
          | rw [handleValidated_run ho (runFromOwner_ok hrb ht
                (runFromTip_update_error hub hbt hueq))]
          intro c hc
          simp only [List.mem_append, List.mem_singleton] at hc
          rcases hc with h | (h | h) | (h | h) | h
          · exact Or.inl (p1 c h)
          · exact Or.inr (p2 c h)
          · exact Or.inr (p3 c h)
          · exact Or.inr (p4 c h)
          · exact Or.inr (p5 c h)
          · subst h; exact Or.inr rfl

/-- Claim C3: a create_commit request that passes validation but has an
empty files array fails with the empty-changeset error (the spec's
`EmptyChangesetError`) before any blob upload call is attempted and
before tree construction proceeds: whenever owner resolution and the
reference read succeed, the result is exactly `emptyChangesetError` and
the trace contains no `createBlob` and no `createTree` request. -/
theorem create_commit_empty_files_fails_before_blobs
    (env : Env) (raw : JSValue) (t1 : List ApiCall) (owner : String)
    (t2 : List ApiCall) (b : String) (t3 : List ApiCall) (p ts : String)
    (hv : isValidCreateCommitArgs raw = true)
    (hf : (extractArgs raw).files = [])
    (ho : resolveOwner env (extractArgs raw).owner = (t1, Except.ok owner))
    (hrb : resolveBranch env (extractArgs raw).repo owner (extractArgs raw).branch
        = (t2, b))
    (ht : readTip env owner (extractArgs raw).repo b = (t3, Except.ok (p, ts))) :
    (handleCreateCommit env raw).2 = Except.error emptyChangesetError ∧
    countKind CallKind.createBlobK (handleCreateCommit env raw).1 = 0 ∧
    countKind CallKind.createTreeK (handleCreateCommit env raw).1 = 0 := by
  have h1 : t1 = [] ∨ t1 = [ApiCall.getAuthenticated] := by
    have := resolveOwner_trace env (extractArgs raw).owner; rwa [ho] at this
  have h2 : t2 = [] ∨ t2 = [ApiCall.reposGet owner (extractArgs raw).repo] := by
    have := resolveBranch_trace env (extractArgs raw).repo owner (extractArgs raw).branch
    rwa [hrb] at this
  have h3 := readTip_trace env owner (extractArgs raw).repo b
  rw [ht] at h3
  have hub : uploadBlobs env owner (extractArgs raw).repo (extractArgs raw).files
      = ([], Except.ok []) := by rw [hf]; rfl
  have hbt : buildTreeAndCommit env owner (extractArgs raw).repo
      (extractArgs raw).message ts p [] = ([], Except.error emptyChangesetError) := rfl
  have hrun : handleValidated env (extractArgs raw)
      = (t1 ++ (t2 ++ t3 ++ ([] ++ [])), Except.error emptyChangesetError) :=
    handleValidated_run ho (runFromOwner_ok hrb ht (runFromTip_build_error hub hbt))
  have z1b : countKind CallKind.createBlobK t1 = 0 := by
    rcases h1 with rfl | rfl <;> simp [countKind, List.countP_cons, ApiCall.kind]
  have z2b : countKind CallKind.createBlobK t2 = 0 := by
    rcases h2 with rfl | rfl <;> simp [countKind, List.countP_cons, ApiCall.kind]
  have z3b : countKind CallKind.createBlobK t3 = 0 := by
    rcases h3 with h | ⟨s, h⟩ <;> subst h <;>
      simp [countKind, List.countP_cons, ApiCall.kind]
  have z1t : countKind CallKind.createTreeK t1 = 0 := by
    rcases h1 with rfl | rfl <;> simp [countKind, List.countP_cons, ApiCall.kind]
  have z2t : countKind CallKind.createTreeK t2 = 0 := by
    rcases h2 with rfl | rfl <;> simp [countKind, List.countP_cons, ApiCall.kind]
  have z3t : countKind CallKind.createTreeK t3 = 0 := by
    rcases h3 with h | ⟨s, h⟩ <;> subst h <;>
      simp [countKind, List.countP_cons, ApiCall.kind]
  unfold handleCreateCommit
  simp only [hv, eq_self_iff_true, if_true, hrun]
  refine ⟨trivial, ?_, ?_⟩
  · rw [countKind_append, countKind_append, countKind_append, countKind_append,
      z1b, z2b, z3b]
    rfl
  · rw [countKind_append, countKind_append, countKind_append, countKind_append,
      z1t, z2t, z3t]
    rfl

theorem create_commit_empty_files_witness :
    (handleCreateCommit env0 (ccRawEmptyFiles "acme" "widgets" "dev" "m")).2
      = Except.error emptyChangesetError :=
  (create_commit_empty_files_fails_before_blobs env0
    (ccRawEmptyFiles "acme" "widgets" "dev" "m") [] "acme" [] "dev"
    [ApiCall.getRef "acme" "widgets" "heads/dev",
     ApiCall.getCommit "acme" "widgets" "tipsha"] "tipsha" "basetree"
    (by decide) rfl rfl rfl rfl).1

/-- Claim C5: branch resolution, shared by every operation that takes an
optional branch (create_commit, push, pull, git_status via
`detectCurrentBranch`): an explicit truthy argument is used as-is with
no metadata read; otherwise one repository-metadata read happens and the
branch is its server-declared default branch on success and the literal
"main" when the read fails — `resolveBranch` returns a plain branch name
in every case, so the failing metadata read alone never raises an error
to the caller. -/
theorem branch_resolution_defaults (env : Env) (repo owner : String) :
    (∀ b2 : String, b2.isEmpty = false →
      resolveBranch env repo owner (some b2) = ([], b2)) ∧
    (∀ ab, strTruthy ab = false →
      ∀ db, env.reposGet owner repo = Except.ok db →
      resolveBranch env repo owner ab = ([ApiCall.reposGet owner repo], db)) ∧
    (∀ ab, strTruthy ab = false →
      ∀ e, env.reposGet owner repo = Except.error e →
      resolveBranch env repo owner ab = ([ApiCall.reposGet owner repo], "main")) := by
  refine ⟨?_, ?_, ?_⟩
  · intro b2 hb
    unfold resolveBranch
    simp [hb]
  · intro ab hab db hdb
    unfold resolveBranch detectCurrentBranch
    cases ab with
    | none => simp [hdb]
    | some s =>
      simp only [strTruthy, Bool.not_eq_false'] at hab
      simp [hab, hdb]
  · intro ab hab e he
    unfold resolveBranch detectCurrentBranch
    cases ab with
    | none => simp [he]
    | some s =>
      simp only [strTruthy, Bool.not_eq_false'] at hab
      simp [hab, he]

theorem branch_resolution_witness :
    resolveBranch envRepoFail "widgets" "acme" none
      = ([ApiCall.reposGet "acme" "widgets"], "main") :=
  (branch_resolution_defaults envRepoFail "widgets" "acme").2.2 none rfl
    (JsError.js "not found") rfl

/-- Claim C10: the create_commit argument validator accepts an empty
files array (the per-file check is vacuously true), so an empty
changeset is not rejected as an invalid-arguments failure; with explicit
owner and branch the handler then issues exactly the branch-reference
read and the commit read (two remote calls) before the emptiness guard
fires inside the tree-construction stage, with no blob or tree request
ever issued. -/
theorem create_commit_validator_accepts_empty_files
    (env : Env) (o r b m sha ts : String)
    (hoe : o.isEmpty = false) (hbe : b.isEmpty = false)
    (h1 : env.getRef o r ("heads/" ++ b) = Except.ok (some sha))
    (h2 : env.getCommit o r sha = Except.ok (some ts)) :
    isValidCreateCommitArgs (ccRawEmptyFiles o r b m) = true ∧
    handleCreateCommit env (ccRawEmptyFiles o r b m)
      = ([ApiCall.getRef o r ("heads/" ++ b), ApiCall.getCommit o r sha],
         Except.error emptyChangesetError) := by
  have hvalid : isValidCreateCommitArgs (ccRawEmptyFiles o r b m) = true := rfl
  have ho : resolveOwner env (extractArgs (ccRawEmptyFiles o r b m)).owner
      = ([], Except.ok o) := by
    show resolveOwner env (some o) = ([], Except.ok o)
    unfold resolveOwner
    simp [strTruthy, hoe]
  have hrb : resolveBranch env (extractArgs (ccRawEmptyFiles o r b m)).repo o
      (extractArgs (ccRawEmptyFiles o r b m)).branch = ([], b) := by
    show resolveBranch env r o (some b) = ([], b)
    unfold resolveBranch
    simp [hbe]
  have ht : readTip env o (extractArgs (ccRawEmptyFiles o r b m)).repo b
      = ([ApiCall.getRef o r ("heads/" ++ b), ApiCall.getCommit o r sha],
         Except.ok (sha, ts)) := by
    show readTip env o r b = _
    unfold readTip
    simp [h1, h2]
  have hub : uploadBlobs env o (extractArgs (ccRawEmptyFiles o r b m)).repo
      (extractArgs (ccRawEmptyFiles o r b m)).files = ([], Except.ok []) := rfl
  have hbt : buildTreeAndCommit env o (extractArgs (ccRawEmptyFiles o r b m)).repo
      (extractArgs (ccRawEmptyFiles o r b m)).message ts sha []
      = ([], Except.error emptyChangesetError) := rfl
  have hrun : handleValidated env (extractArgs (ccRawEmptyFiles o r b m))
      = ([] ++ ([] ++ [ApiCall.getRef o r ("heads/" ++ b),
            ApiCall.getCommit o r sha] ++ ([] ++ [])),
         Except.error emptyChangesetError) :=
    handleValidated_run ho (runFromOwner_ok hrb ht (runFromTip_build_error hub hbt))
  refine ⟨hvalid, ?_⟩
  unfold handleCreateCommit
  simp [hvalid, hrun]

theorem create_commit_validator_empty_files_witness :
    handleCreateCommit env0 (ccRawEmptyFiles "beta" "tools" "trunk" "msg")
      = ([ApiCall.getRef "beta" "tools" "heads/trunk",
          ApiCall.getCommit "beta" "tools" "tipsha"],
         Except.error emptyChangesetError) :=
  (create_commit_validator_accepts_empty_files env0 "beta" "tools" "trunk" "msg"
    "tipsha" "basetree" rfl rfl rfl rfl).2

/-- Claim C4: owner resolution, shared by every operation that needs an
owner, follows first-match precedence — explicit non-empty argument,
else owner parsed from the git remote origin URL, else git `user.name`
(both inside `getGitConfigOwner`), else the authenticated API principal.
The catch-wrapped variant (create_commit, pull, git_status) fails with
`ownerResolutionError` exactly when the earlier sources are absent and
the authenticated-user lookup itself fails; the variant without a catch
(get_repo, create_repo, push) propagates that lookup's raw error and
never produces `ownerResolutionError` itself.  Within create_commit the
resolved owner is the one carried by every owner-bearing API request of
the run. -/
theorem owner_resolution_precedence (env : Env) :
    (∀ s : String, s.isEmpty = false →
      resolveOwner env (some s) = ([], Except.ok s) ∧
      resolveOwnerNoCatch env (some s) = ([], Except.ok s)) ∧
    (∀ ao, strTruthy ao = false →
      ∀ o, getGitConfigOwner env.gitConfig = some o →
      resolveOwner env ao = ([], Except.ok o) ∧
      resolveOwnerNoCatch env ao = ([], Except.ok o)) ∧
    (∀ ao, strTruthy ao = false → getGitConfigOwner env.gitConfig = none →
      ∀ u, env.authUser = Except.ok u →
      resolveOwner env ao = ([ApiCall.getAuthenticated], Except.ok u) ∧
      resolveOwnerNoCatch env ao = ([ApiCall.getAuthenticated], Except.ok u)) ∧
    (∀ ao, strTruthy ao = false → getGitConfigOwner env.gitConfig = none →
      ∀ e, env.authUser = Except.error e →
      resolveOwner env ao
        = ([ApiCall.getAuthenticated], Except.error ownerResolutionError) ∧
      resolveOwnerNoCatch env ao = ([ApiCall.getAuthenticated], Except.error e)) ∧
    (∀ ao t msg, resolveOwner env ao = (t, Except.error msg) →
      msg = ownerResolutionError ∧ strTruthy ao = false ∧
      getGitConfigOwner env.gitConfig = none ∧
      ∃ e, env.authUser = Except.error e) ∧
    (∀ cfg url o2, cfg.remoteOriginUrl = Except.ok url → url.isEmpty = false →
      extractGithubOwner url = some o2 → getGitConfigOwner cfg = some o2) ∧
    (∀ cfg url, cfg.remoteOriginUrl = Except.ok url → url.isEmpty = false →
      extractGithubOwner url = none →
      getGitConfigOwner cfg = getGitConfigUser cfg) ∧
    (∀ cfg url, cfg.remoteOriginUrl = Except.ok url → url.isEmpty = true →
      getGitConfigOwner cfg = getGitConfigUser cfg) ∧
    (∀ cfg e, cfg.remoteOriginUrl = Except.error e →
      getGitConfigOwner cfg = getGitConfigUser cfg) ∧
    (∀ raw t1 owner, isValidCreateCommitArgs raw = true →
      resolveOwner env (extractArgs raw).owner = (t1, Except.ok owner) →
      ∀ c ∈ (handleCreateCommit env raw).1,
        c.callOwner = none ∨ c.callOwner = some owner) := by
  refine ⟨?_, ?_, ?_, ?_, ?_, ?_, ?_, ?_, ?_, ?_⟩
  · intro s hs
    constructor <;> simp [resolveOwner, resolveOwnerNoCatch, strTruthy, hs]
  · intro ao hao o hcfg
    constructor <;> simp [resolveOwner, resolveOwnerNoCatch, hao, hcfg]
  · intro ao hao hcfg u hu
    constructor <;> simp [resolveOwner, resolveOwnerNoCatch, hao, hcfg, hu]
  · intro ao hao hcfg e he
    constructor <;> simp [resolveOwner, resolveOwnerNoCatch, hao, hcfg, he]
  · intro ao t msg h
    unfold resolveOwner at h
    cases hao : strTruthy ao
    · simp only [hao, Bool.false_eq_true, if_false] at h
      cases hcfg : getGitConfigOwner env.gitConfig with
      | some o => simp [hcfg] at h
      | none =>
        simp only [hcfg] at h
        cases hu : env.authUser with
        | ok u => simp [hu] at h
        | error e =>
          simp only [hu, Prod.mk.injEq] at h
          exact ⟨(Except.error.inj h.2.symm), rfl, rfl, e, rfl⟩
    · simp [hao] at h
  · intro cfg url o2 hurl hue hex
    unfold getGitConfigOwner
    simp [hurl, hue, hex]
  · intro cfg url hurl hue hex
    unfold getGitConfigOwner
    simp [hurl, hue, hex]
  · intro cfg url hurl hue
    unfold getGitConfigOwner
    simp [hurl, hue]
  · intro cfg e he
    unfold getGitConfigOwner
    simp [he]
  · intro raw t1 owner hv ho
    unfold handleCreateCommit
    simp only [hv, eq_self_iff_true, if_true]
    exact handleValidated_owner_calls env (extractArgs raw) ho

theorem owner_resolution_witness :
    resolveOwner env0 (some "acme") = ([], Except.ok "acme") :=
  ((owner_resolution_precedence env0).1 "acme" rfl).1

lemma kind_of_shape1 {t1 : List ApiCall}
    (h : t1 = [] ∨ t1 = [ApiCall.getAuthenticated]) :
    ∀ c ∈ t1, c.kind = CallKind.getAuthK := by
  rcases h with rfl | rfl
  · intro c hc; simp at hc
  · intro c hc; rw [List.mem_singleton] at hc; subst hc; rfl

lemma kind_of_shape2 {t : List ApiCall} {o r : String}
    (h : t = [] ∨ t = [ApiCall.reposGet o r]) :
    ∀ c ∈ t, c.kind = CallKind.reposGetK := by
  rcases h with rfl | rfl
  · intro c hc; simp at hc
  · intro c hc; rw [List.mem_singleton] at hc; subst hc; rfl

lemma kind_of_shape3 {t : List ApiCall} {o r rf : String}
    (h : t = [ApiCall.getRef o r rf] ∨
      ∃ s, t = [ApiCall.getRef o r rf, ApiCall.getCommit o r s]) :
    ∀ c ∈ t, c.kind = CallKind.getRefK ∨ c.kind = CallKind.getCommitK := by
  rcases h with rfl | ⟨s, rfl⟩
  · intro c hc; rw [List.mem_singleton] at hc; subst hc; exact Or.inl rfl
  · intro c hc
    simp only [List.mem_cons, List.not_mem_nil, or_false] at hc
    rcases hc with rfl | rfl
    · exact Or.inl rfl
    · exact Or.inr rfl

lemma kind_of_map {o r : String} {files : List FileChange} :
    ∀ c ∈ files.map fun f => ApiCall.createBlob o r f.content "utf-8",
      c.kind = CallKind.createBlobK := by
  intro c hc
  obtain ⟨f, _, rfl⟩ := List.mem_map.mp hc
  rfl

/-- Claim C6: every successful create_commit run issues exactly one
createTree and one createCommit request; the commit is created with the
single parent `p` captured by the Reference Reader (never a merge
commit) and the tree is created with `base_tree` equal to that tip
commit's tree sha `ts`, its entries being one blob record per input file
in input order — so, by the remote's documented base_tree semantics, the
request's paths are added or replaced and all other paths of the base
tree are inherited unchanged. -/
theorem create_commit_single_parent_and_base_tree
    (env : Env) (raw : JSValue) (t1 : List ApiCall) (owner : String)
    (t2 : List ApiCall) (b : String) (t3 : List ApiCall) (p ts : String)
    (pl : SuccessPayload)
    (hv : isValidCreateCommitArgs raw = true)
    (ho : resolveOwner env (extractArgs raw).owner = (t1, Except.ok owner))
    (hrb : resolveBranch env (extractArgs raw).repo owner (extractArgs raw).branch
        = (t2, b))
    (ht : readTip env owner (extractArgs raw).repo b = (t3, Except.ok (p, ts)))
    (hs : (handleCreateCommit env raw).2 = Except.ok pl) :
    countKind CallKind.createCommitK (handleCreateCommit env raw).1 = 1 ∧
    countKind CallKind.createTreeK (handleCreateCommit env raw).1 = 1 ∧
    (∀ c ∈ (handleCreateCommit env raw).1, c.kind = CallKind.createCommitK →
      c.ccParents = some [p]) ∧
    (∀ c ∈ (handleCreateCommit env raw).1, c.kind = CallKind.createTreeK →
      c.ctBase = some ts ∧
      c.ctEntries.map (fun es => es.map fun bl => bl.path)
        = some ((extractArgs raw).files.map fun f => f.path)) := by
  have h1 : t1 = [] ∨ t1 = [ApiCall.getAuthenticated] := by
    have := resolveOwner_trace env (extractArgs raw).owner; rwa [ho] at this
  have h2 : t2 = [] ∨ t2 = [ApiCall.reposGet owner (extractArgs raw).repo] := by
    have := resolveBranch_trace env (extractArgs raw).repo owner (extractArgs raw).branch
    rwa [hrb] at this
  have h3 := readTip_trace env owner (extractArgs raw).repo b
  rw [ht] at h3
  rcases hub : uploadBlobs env owner (extractArgs raw).repo (extractArgs raw).files
    with ⟨t4, r4⟩
  cases r4 with
  | error e =>
    have hrun := handleValidated_run ho (runFromOwner_ok hrb ht (runFromTip_blob_error hub))
    unfold handleCreateCommit at hs
    simp [hv, hrun] at hs
  | ok blobs =>
    rcases hbt : buildTreeAndCommit env owner (extractArgs raw).repo
        (extractArgs raw).message ts p blobs with ⟨t5, r5⟩
    cases r5 with
    | error e =>
      have hrun := handleValidated_run ho
        (runFromOwner_ok hrb ht (runFromTip_build_error hub hbt))
      unfold handleCreateCommit at hs
      simp [hv, hrun] at hs
    | ok newSha =>
      rcases updateBranch_cases env owner (extractArgs raw).repo b newSha with
        ⟨hok, hueq⟩ | ⟨e0, herr0, hueq⟩
      · have hrun := handleValidated_run ho
          (runFromOwner_ok hrb ht (runFromTip_update_ok hub hbt hueq))
        obtain ⟨ts2, hct, hcc, ht5, hbne⟩ := buildTreeAndCommit_ok hbt
        obtain ⟨hcoll, h4t⟩ := uploadBlobs_ok hub
        have hfa := blob_forall2 env owner (extractArgs raw).repo
          (extractArgs raw).files blobs hcoll
        have hpaths : blobs.map (fun bl => bl.path)
            = (extractArgs raw).files.map fun f => f.path :=
          forall2_paths hfa fun f bl hr => hr.1
        have z1c : countKind CallKind.createCommitK t1 = 0 := by
          rcases h1 with rfl | rfl <;> simp [countKind, List.countP_cons, ApiCall.kind]
        have z2c : countKind CallKind.createCommitK t2 = 0 := by
          rcases h2 with rfl | rfl <;> simp [countKind, List.countP_cons, ApiCall.kind]
        have z3c : countKind CallKind.createCommitK t3 = 0 := by
          rcases h3 with h | ⟨s, h⟩ <;> subst h <;>
            simp [countKind, List.countP_cons, ApiCall.kind]
        have z4c : countKind CallKind.createCommitK t4 = 0 := by
          rw [h4t, countKind_blob_map]; simp
        have z1t : countKind CallKind.createTreeK t1 = 0 := by
          rcases h1 with rfl | rfl <;> simp [countKind, List.countP_cons, ApiCall.kind]
        have z2t : countKind CallKind.createTreeK t2 = 0 := by
          rcases h2 with rfl | rfl <;> simp [countKind, List.countP_cons, ApiCall.kind]
        have z3t : countKind CallKind.createTreeK t3 = 0 := by
          rcases h3 with h | ⟨s, h⟩ <;> subst h <;>
            simp [countKind, List.countP_cons, ApiCall.kind]
        have z4t : countKind CallKind.createTreeK t4 = 0 := by
          rw [h4t, countKind_blob_map]; simp
        have h5c : countKind CallKind.createCommitK t5 = 1 := by
          rw [ht5, countKind_pair]; simp [ApiCall.kind]
        have h5t : countKind CallKind.createTreeK t5 = 1 := by
          rw [ht5, countKind_pair]; simp [ApiCall.kind]
        have zuc : countKind CallKind.createCommitK
            [ApiCall.updateRef owner (extractArgs raw).repo ("heads/" ++ b) newSha] = 0 := by
          simp [countKind_single, ApiCall.kind]
        have zut : countKind CallKind.createTreeK
            [ApiCall.updateRef owner (extractArgs raw).repo ("heads/" ++ b) newSha] = 0 := by
          simp [countKind_single, ApiCall.kind]
        unfold handleCreateCommit
        simp only [hv, eq_self_iff_true, if_true, hrun]
        refine ⟨?_, ?_, ?_, ?_⟩
        · rw [countKind_append, countKind_append, countKind_append, countKind_append,
            countKind_append, z1c, z2c, z3c, z4c, h5c, zuc]
        · rw [countKind_append, countKind_append, countKind_append, countKind_append,
            countKind_append, z1t, z2t, z3t, z4t, h5t, zut]
        · intro c hc hck
          simp only [List.mem_append, List.mem_singleton] at hc
          rcases hc with h | (h | h) | (h | h) | h
          · have hk := kind_of_shape1 h1 c h; rw [hk] at hck; simp at hck
          · have hk := kind_of_shape2 h2 c h; rw [hk] at hck; simp at hck
          · rcases kind_of_shape3 h3 c h with hk | hk <;> rw [hk] at hck <;> simp at hck
          · rw [h4t] at h
            have hk := kind_of_map c h; rw [hk] at hck; simp at hck
          · rw [ht5] at h
            simp only [List.mem_cons, List.not_mem_nil, or_false] at h
            rcases h with rfl | rfl
            · simp [ApiCall.kind] at hck
            · rfl
          · subst h; simp [ApiCall.kind] at hck
        · intro c hc hck
          simp only [List.mem_append, List.mem_singleton] at hc
          rcases hc with h | (h | h) | (h | h) | h
          · have hk := kind_of_shape1 h1 c h; rw [hk] at hck; simp at hck
          · have hk := kind_of_shape2 h2 c h; rw [hk] at hck; simp at hck
          · rcases kind_of_shape3 h3 c h with hk | hk <;> rw [hk] at hck <;> simp at hck
          · rw [h4t] at h
            have hk := kind_of_map c h; rw [hk] at hck; simp at hck
          · rw [ht5] at h
            simp only [List.mem_cons, List.not_mem_nil, or_false] at h
            rcases h with rfl | rfl
            · refine ⟨rfl, ?_⟩
              simp only [ApiCall.ctEntries, Option.map_some']
              rw [hpaths]
            · simp [ApiCall.kind] at hck
          · subst h; simp [ApiCall.kind] at hck
      · have hrun := handleValidated_run ho
          (runFromOwner_ok hrb ht (runFromTip_update_error hub hbt hueq))
        unfold handleCreateCommit at hs
        simp [hv, hrun] at hs

theorem create_commit_single_parent_witness :
    countKind CallKind.createCommitK (handleCreateCommit env0 rawOneFile).1 = 1 :=
  (create_commit_single_parent_and_base_tree env0 rawOneFile [] "acme" [] "dev"
    [ApiCall.getRef "acme" "widgets" "heads/dev",
     ApiCall.getCommit "acme" "widgets" "tipsha"] "tipsha" "basetree"
    (mkPayload "acme" (extractArgs rawOneFile) "dev" "newcommit")
    (by decide) rfl rfl rfl rfl).1

/-- Claim C7: on every successful create_commit run the blob-record list
fed to tree construction and the `file_paths` of the success payload are
exactly the caller's input paths in input order, and `files_changed`
equals the number of input files.  Each blob record's sha is determined
by its own file's content alone (the fan-out oracle is applied to each
file independently), which embeds the irrelevance of upload completion
order. -/
theorem create_commit_preserves_file_order
    (env : Env) (raw : JSValue) (t1 : List ApiCall) (owner : String)
    (pl : SuccessPayload)
    (hv : isValidCreateCommitArgs raw = true)
    (ho : resolveOwner env (extractArgs raw).owner = (t1, Except.ok owner))
    (hs : (handleCreateCommit env raw).2 = Except.ok pl) :
    pl.file_paths = (extractArgs raw).files.map (fun f => f.path) ∧
    pl.files_changed = (extractArgs raw).files.length ∧
    ∃ t4 blobs,
      uploadBlobs env owner (extractArgs raw).repo (extractArgs raw).files
        = (t4, Except.ok blobs) ∧
      blobs.map (fun bl => bl.path) = (extractArgs raw).files.map (fun f => f.path) ∧
      List.Forall₂ (fun (f : FileChange) (bl : BlobEntry) =>
        bl.path = f.path ∧
        env.createBlob owner (extractArgs raw).repo f.content = Except.ok bl.sha)
        (extractArgs raw).files blobs ∧
      ∀ c ∈ (handleCreateCommit env raw).1, c.kind = CallKind.createTreeK →
        c.ctEntries = some blobs := by
  have h1 : t1 = [] ∨ t1 = [ApiCall.getAuthenticated] := by
    have := resolveOwner_trace env (extractArgs raw).owner; rwa [ho] at this
  rcases hrb : resolveBranch env (extractArgs raw).repo owner (extractArgs raw).branch
    with ⟨t2, b⟩
  have h2 : t2 = [] ∨ t2 = [ApiCall.reposGet owner (extractArgs raw).repo] := by
    have := resolveBranch_trace env (extractArgs raw).repo owner (extractArgs raw).branch
    rwa [hrb] at this
  rcases ht : readTip env owner (extractArgs raw).repo b with ⟨t3, r3⟩
  have h3 := readTip_trace env owner (extractArgs raw).repo b
  rw [ht] at h3
  cases r3 with
  | error e =>
    have hrun := handleValidated_run ho (runFromOwner_err hrb ht)
    unfold handleCreateCommit at hs
    simp [hv, hrun] at hs
  | ok pts =>
    obtain ⟨p, ts⟩ := pts
    rcases hub : uploadBlobs env owner (extractArgs raw).repo (extractArgs raw).files
      with ⟨t4, r4⟩
    cases r4 with
    | error e =>
      have hrun := handleValidated_run ho
        (runFromOwner_ok hrb ht (runFromTip_blob_error hub))
      unfold handleCreateCommit at hs
      simp [hv, hrun] at hs
    | ok blobs =>
      rcases hbt : buildTreeAndCommit env owner (extractArgs raw).repo
          (extractArgs raw).message ts p blobs with ⟨t5, r5⟩
      cases r5 with
      | error e =>
        have hrun := handleValidated_run ho
          (runFromOwner_ok hrb ht (runFromTip_build_error hub hbt))
        unfold handleCreateCommit at hs
        simp [hv, hrun] at hs
      | ok newSha =>
        rcases updateBranch_cases env owner (extractArgs raw).repo b newSha with
          ⟨hok, hueq⟩ | ⟨e0, herr0, hueq⟩
        · have hrun := handleValidated_run ho
            (runFromOwner_ok hrb ht (runFromTip_update_ok hub hbt hueq))
          obtain ⟨ts2, hct, hcc, ht5, hbne⟩ := buildTreeAndCommit_ok hbt
          obtain ⟨hcoll, h4t⟩ := uploadBlobs_ok hub
          have hfa := blob_forall2 env owner (extractArgs raw).repo
            (extractArgs raw).files blobs hcoll
          have hpaths : blobs.map (fun bl => bl.path)
              = (extractArgs raw).files.map fun f => f.path :=
            forall2_paths hfa fun f bl hr => hr.1
          have hpl : pl = mkPayload owner (extractArgs raw) b newSha := by
            unfold handleCreateCommit at hs
            simp [hv, hrun] at hs
            exact hs.symm
          subst hpl
          refine ⟨rfl, rfl, t4, blobs, rfl, hpaths,
            List.Forall₂.imp (fun f bl hr => ⟨hr.1, hr.2.2.2⟩) hfa, ?_⟩
          intro c hc hck
          unfold handleCreateCommit at hc
          simp only [hv, eq_self_iff_true, if_true, hrun] at hc
          simp only [List.mem_append, List.mem_singleton] at hc
          rcases hc with h | (h | h) | (h | h) | h
          · have hk := kind_of_shape1 h1 c h; rw [hk] at hck; simp at hck
          · have hk := kind_of_shape2 h2 c h; rw [hk] at hck; simp at hck
          · rcases kind_of_shape3 h3 c h with hk | hk <;> rw [hk] at hck <;> simp at hck
          · rw [h4t] at h
            have hk := kind_of_map c h; rw [hk] at hck; simp at hck
          · rw [ht5] at h
            simp only [List.mem_cons, List.not_mem_nil, or_false] at h
            rcases h with rfl | rfl
            · rfl
            · simp [ApiCall.kind] at hck
          · subst h; simp [ApiCall.kind] at hck
        · have hrun := handleValidated_run ho
            (runFromOwner_ok hrb ht (runFromTip_update_error hub hbt hueq))
          unfold handleCreateCommit at hs
          simp [hv, hrun] at hs

theorem create_commit_file_order_witness :
    (mkPayload "acme" (extractArgs rawOneFile) "dev" "newcommit").file_paths
      = (extractArgs rawOneFile).files.map (fun f => f.path) :=
  (create_commit_preserves_file_order env0 rawOneFile [] "acme"
    (mkPayload "acme" (extractArgs rawOneFile) "dev" "newcommit")
    (by decide) rfl rfl).1

lemma ghScan_cons_none {c : Char} {rest : List Char}
    (h : ghMatchAt (c :: rest) = none) :
    ghScan (c :: rest) = ghScan rest := by
  simp only [ghScan, h]

lemma ghScan_cons_some {c : Char} {rest cap : List Char}
    (h : ghMatchAt (c :: rest) = some cap) :
    ghScan (c :: rest) = some cap := by
  simp only [ghScan, h]

lemma ghScan_skip (pre rest : List Char) (h : ∀ c ∈ pre, c ≠ 'g') :
    ghScan (pre ++ rest) = ghScan rest := by
  induction pre with
  | nil => simp
  | cons c cs ih =>
    have hc : c ≠ 'g' := h c (List.mem_cons_self c cs)
    have hm : ghMatchAt (c :: (cs ++ rest)) = none := by
      unfold ghMatchAt
      have hp : ghHost.isPrefixOf (c :: (cs ++ rest)) = false := by
        simp only [ghHost, List.isPrefixOf, Bool.and_eq_false_iff]
        left
        simp [beq_eq_false_iff_ne]
        exact fun h2 => hc h2.symm
      simp [hp]
    rw [List.cons_append, ghScan_cons_none hm]
    exact ih fun c2 hc2 => h c2 (List.mem_cons_of_mem _ hc2)

lemma takeWhile_append_stop {p : Char → Bool} {xs : List Char}
    (h : ∀ x ∈ xs, p x = true) {y : Char} (hy : p y = false) (ys : List Char) :
    (xs ++ y :: ys).takeWhile p = xs := by
  induction xs with
  | nil => simp [List.takeWhile_cons, hy]
  | cons a as ih =>
    have ha := h a (List.mem_cons_self a as)
    simp only [List.cons_append, List.takeWhile_cons, ha, if_true]
    rw [ih fun x hx => h x (List.mem_cons_of_mem _ hx)]

lemma ghMatchAt_hit (sep : Char) (hsep : sep = '/' ∨ sep = ':')
    (cap : List Char) (h1 : cap ≠ []) (h2 : ∀ c ∈ cap, c ≠ '/')
    (rest : List Char) :
    ghMatchAt (ghHost ++ sep :: (cap ++ '/' :: rest)) = some cap := by
  have hpre : ghHost.isPrefixOf (ghHost ++ sep :: (cap ++ '/' :: rest)) = true := by
    simp [List.isPrefixOf_iff_prefix]
  have hdrop : (ghHost ++ sep :: (cap ++ '/' :: rest)).drop 10
      = sep :: (cap ++ '/' :: rest) := rfl
  have ht : (cap ++ '/' :: rest).takeWhile (fun x => x ≠ '/') = cap :=
    takeWhile_append_stop (fun x hx => by simp [h2 x hx]) (by simp) rest
  have hne : cap.isEmpty = false := by
    cases cap with
    | nil => exact absurd rfl h1
    | cons a as => rfl
  unfold ghMatchAt
  simp only [hpre, if_true, hdrop, ht, hne, if_pos hsep]
  simp

lemma ghScan_host (sep : Char) (hsep : sep = '/' ∨ sep = ':')
    (cap : List Char) (h1 : cap ≠ []) (h2 : ∀ c ∈ cap, c ≠ '/')
    (rest : List Char) :
    ghScan (ghHost ++ sep :: (cap ++ '/' :: rest)) = some cap := by
  have hm := ghMatchAt_hit sep hsep cap h1 h2 rest
  have he : ghHost ++ sep :: (cap ++ '/' :: rest)
      = 'g' :: (['i','t','h','u','b','.','c','o','m'] ++ sep :: (cap ++ '/' :: rest)) := rfl
  rw [he] at hm ⊢
  exact ghScan_cons_some hm

lemma ghScan_git_at (X : List Char) :
    ghScan ('g' :: 'i' :: 't' :: '@' :: X) = ghScan X := by
  have h0 : ghMatchAt ('g' :: 'i' :: 't' :: '@' :: X) = none := rfl
  have h1 : ghMatchAt ('i' :: 't' :: '@' :: X) = none := rfl
  have h2 : ghMatchAt ('t' :: '@' :: X) = none := rfl
  have h3 : ghMatchAt ('@' :: X) = none := rfl
  rw [ghScan_cons_none h0, ghScan_cons_none h1, ghScan_cons_none h2,
    ghScan_cons_none h3]

/-- Claim C9 counterexample: a remote origin URL of exactly the claimed
https form whose host is `gitlab.com` (owner segment "alice") is not
parsed by the code — the regex requires the literal `github.com` — so
step (b) does not extract the segment following the host: with
`user.name` set to "bob", `getGitConfigOwner` yields "bob", not
"alice". -/
theorem git_config_owner_non_github_host_counterexample :
    extractGithubOwner "https://gitlab.com/alice/repo.git" = none ∧
    getGitConfigOwner
      { remoteOriginUrl := Except.ok "https://gitlab.com/alice/repo.git"
      , userName := Except.ok "bob" } = some "bob" ∧
    getGitConfigOwner
      { remoteOriginUrl := Except.ok "https://gitlab.com/alice/repo.git"
      , userName := Except.ok "bob" } ≠ some "alice" :=
  ⟨rfl, rfl, by decide⟩

/-- Claim C9 amended: for remote origin URLs whose host is github.com —
`https://github.com/owner/repo.git` and the ssh form
`git@github.com:owner/repo.git` — step (b) extracts the path segment
immediately following the host as the owner, for any non-empty owner
segment free of `/`; other hosts yield no match (see the
counterexample) and fall back to `user.name`. -/
theorem git_config_owner_github_host_extraction (owner repo : String)
    (h1 : owner.data ≠ []) (h2 : ∀ c ∈ owner.data, c ≠ '/') :
    extractGithubOwner ("https://github.com/" ++ owner ++ "/" ++ repo ++ ".git")
      = some owner ∧
    extractGithubOwner ("git@github.com:" ++ owner ++ "/" ++ repo ++ ".git")
      = some owner := by
  constructor
  · unfold extractGithubOwner
    have hd : ("https://github.com/" ++ owner ++ "/" ++ repo ++ ".git").data
        = ['h','t','t','p','s',':','/','/'] ++
          (ghHost ++ '/' :: (owner.data ++ '/' :: (repo.data ++ ['.','g','i','t']))) := by
      simp [ghHost]
    rw [hd, ghScan_skip ['h','t','t','p','s',':','/','/'] _ (by decide),
      ghScan_host '/' (Or.inl rfl) owner.data h1 h2 _]
    rfl
  · unfold extractGithubOwner
    have hd : ("git@github.com:" ++ owner ++ "/" ++ repo ++ ".git").data
        = 'g' :: 'i' :: 't' :: '@' ::
          (ghHost ++ ':' :: (owner.data ++ '/' :: (repo.data ++ ['.','g','i','t']))) := by
      simp [ghHost]
    rw [hd, ghScan_git_at, ghScan_host ':' (Or.inr rfl) owner.data h1 h2 _]
    rfl

theorem git_config_owner_github_host_witness :
    extractGithubOwner ("https://github.com/" ++ "alice" ++ "/" ++ "repo" ++ ".git")
      = some "alice" :=
  (git_config_owner_github_host_extraction "alice" "repo" (by decide) (by decide)).1

/-- Claim C8 (code bug evaluation): launching with GITHUB_TOKEN absent,
the current modular entry point starts the server anyway — its startup
guard is commented out — while the legacy monolithic entry point exits
with code 1 before serving, as the spec describes; the modular entry
starts regardless of the token value. -/
theorem entry_startup_without_token :
    modularEntryStartup none = StartupOutcome.started ∧
    legacyEntryStartup none = StartupOutcome.exitedWithError 1 ∧
    legacyEntryStartup (some "") = StartupOutcome.exitedWithError 1 ∧
    ∀ tok, modularEntryStartup tok = StartupOutcome.started :=
  ⟨rfl, rfl, rfl, fun _ => rfl⟩
